import Mathlib

/-!
# toy_graphics: a shallow embedding of the software rasterizer

The embedding follows `src/toy_graphics/graphics.h`.  `float` values are taken as exact
numbers of a linearly ordered field `K` with a floor function (`ℚ` for evaluation, `ℝ` for
statements that need a square root); C `int` values are `Int`, the loop counters and pixel
indices of the rasterizer being bounded by the dimensions of the buffer; `uint8_t` values are
`Nat` reduced modulo `256` where they are produced.  The header `math.h` of the repository is not
among the sources: the vector and matrix operations used by `graphics.h` are modelled from the
specification, and the square root used by `math::normalize` is a parameter `sqrtf`.

The benchmark registry of `src/toy_graphics/benchmark.h` is embedded as a state machine over
the construction and destruction of `benchmark` objects; the elapsed time measured by the timer
is an input of the destruction.
-/

set_option autoImplicit false

namespace math

/-- Modelled from the spec: `math::vec<2>` of the missing `math.h`, a 2-component tuple. -/
structure vec2 (K : Type) where
  x : K
  y : K

/-- Modelled from the spec: `math::vec<3>` of the missing `math.h`, a 3-component tuple. -/
structure vec3 (K : Type) where
  x : K
  y : K
  z : K

/-- Modelled from the spec: `math::vec<4>` of the missing `math.h`, one row of a matrix. -/
structure vec4 (K : Type) where
  x : K
  y : K
  z : K
  w : K

/-- Modelled from the spec: `math::mat<4>` of the missing `math.h`, a 4x4 matrix stored as four
rows (`m[i]` is row `i`); a point is transformed as `point * matrix`. -/
structure mat4 (K : Type) where
  r0 : vec4 K
  r1 : vec4 K
  r2 : vec4 K
  r3 : vec4 K

variable {K : Type} [LinearOrderedField K] [FloorRing K]

/-- Modelled from the spec: the member `xy` of `math::vec<3>` (missing `math.h`), the projection
to the 2-component sub-vector used by the screen-space edge tests. -/
def vec3.xy (v : vec3 K) : vec2 K := ⟨v.x, v.y⟩

/-- Modelled from the spec: component-wise subtraction of `math::vec<2>` (missing `math.h`). -/
def vec2.sub (a b : vec2 K) : vec2 K := ⟨a.x - b.x, a.y - b.y⟩

/-- Modelled from the spec: `math::dot` on `math::vec<2>` (missing `math.h`). -/
def dot2 (a b : vec2 K) : K := a.x * b.x + a.y * b.y

/-- Modelled from the spec: `math::dot` on `math::vec<3>` (missing `math.h`). -/
def dot (a b : vec3 K) : K := a.x * b.x + a.y * b.y + a.z * b.z

/-- Modelled from the spec: component-wise addition of `math::vec<3>` (missing `math.h`). -/
def vec3.add (a b : vec3 K) : vec3 K := ⟨a.x + b.x, a.y + b.y, a.z + b.z⟩

/-- Modelled from the spec: `vec * scalar` on `math::vec<3>` (missing `math.h`). -/
def vec3.scale (a : vec3 K) (s : K) : vec3 K := ⟨a.x * s, a.y * s, a.z * s⟩

/-- Modelled from the spec: `vec + scalar` on `math::vec<3>` (missing `math.h`), the scalar added
to every component. -/
def vec3.add_scalar (a : vec3 K) (s : K) : vec3 K := ⟨a.x + s, a.y + s, a.z + s⟩

/-- Modelled from the spec: `vec / scalar` on `math::vec<3>` (missing `math.h`). -/
def vec3.div_scalar (a : vec3 K) (s : K) : vec3 K := ⟨a.x / s, a.y / s, a.z / s⟩

/-- Modelled from the spec: `vec * vec` on `math::vec<3>` (missing `math.h`), component-wise. -/
def vec3.mul (a b : vec3 K) : vec3 K := ⟨a.x * b.x, a.y * b.y, a.z * b.z⟩

/-- Modelled from the spec: `math::normalize<3>` (missing `math.h`), division by the magnitude;
`sqrtf` is the square root of the C library. -/
def normalize (sqrtf : K → K) (v : vec3 K) : vec3 K := v.div_scalar (sqrtf (dot v v))

/-- Modelled from the spec: the row vector `v` times the matrix `m` (missing `math.h`). -/
def vec4.mul_mat (v : vec4 K) (m : mat4 K) : vec4 K :=
  ⟨v.x * m.r0.x + v.y * m.r1.x + v.z * m.r2.x + v.w * m.r3.x,
   v.x * m.r0.y + v.y * m.r1.y + v.z * m.r2.y + v.w * m.r3.y,
   v.x * m.r0.z + v.y * m.r1.z + v.z * m.r2.z + v.w * m.r3.z,
   v.x * m.r0.w + v.y * m.r1.w + v.z * m.r2.w + v.w * m.r3.w⟩

/-- Modelled from the spec: `math::multiply` (missing `math.h`), the matrix product in which the
left operand is applied first. -/
def multiply (a b : mat4 K) : mat4 K :=
  ⟨a.r0.mul_mat b, a.r1.mul_mat b, a.r2.mul_mat b, a.r3.mul_mat b⟩

/-- Modelled from the spec: `math::transform_point` (missing `math.h`), the homogeneous point
`(x, y, z, 1)` times the matrix, followed by the perspective division. -/
def transform_point (m : mat4 K) (p : vec3 K) : vec3 K :=
  let q := vec4.mul_mat ⟨p.x, p.y, p.z, 1⟩ m
  ⟨q.x / q.w, q.y / q.w, q.z / q.w⟩

/-- Modelled from the spec: `math::transform_vector` (missing `math.h`), the rotation and scale
part of the matrix only: no translation, no perspective division. -/
def transform_vector (m : mat4 K) (v : vec3 K) : vec3 K :=
  let q := vec4.mul_mat ⟨v.x, v.y, v.z, 0⟩ m
  ⟨q.x, q.y, q.z⟩

/-- Modelled from the spec: `math::create_identity<4>` (missing `math.h`), the identity matrix. -/
def create_identity : mat4 K := ⟨⟨1, 0, 0, 0⟩, ⟨0, 1, 0, 0⟩, ⟨0, 0, 1, 0⟩, ⟨0, 0, 0, 1⟩⟩

end math

namespace graphics

open math

/-- The struct `color` (graphics.h, lines 12-21): four 8-bit channels in the order b, g, r, a. -/
structure color where
  b : Nat
  g : Nat
  r : Nat
  a : Nat
deriving DecidableEq, Repr

/-- The constant `color::red`. -/
def color.red : color := ⟨0, 0, 255, 255⟩

/-- The constant `color::green`. -/
def color.green : color := ⟨0, 255, 0, 255⟩

/-- The constant `color::blue`. -/
def color.blue : color := ⟨255, 0, 0, 255⟩

/-- The constant `color::black`. -/
def color.black : color := ⟨0, 0, 0, 255⟩

/-- The constant `color::white`. -/
def color.white : color := ⟨255, 255, 255, 255⟩

/-- The class `color_buffer` (graphics.h, lines 29-79): the two dimensions and the pixel
vector. -/
structure color_buffer where
  _width : Int
  _height : Int
  _data : List color
deriving DecidableEq, Repr

/-- The constructor `color_buffer(width, height)`: the vector is resized to `width * height`
value-initialised pixels. -/
def color_buffer.create (width height : Int) : color_buffer :=
  ⟨width, height, List.replicate (width * height).toNat ⟨0, 0, 0, 0⟩⟩

/-- The method `color_buffer::width`. -/
def color_buffer.width (buffer : color_buffer) : Int := buffer._width

/-- The method `color_buffer::height`. -/
def color_buffer.height (buffer : color_buffer) : Int := buffer._height

/-- The method `color_buffer::set`: `_data[(_width * y) + x] = color`.  The vector access has no
bounds check of its own; an index outside the vector is undefined behaviour and gives `none`. -/
def color_buffer.set (buffer : color_buffer) (x y : Int) (c : color) : Option color_buffer :=
  let i := (buffer._width * y) + x
  if 0 ≤ i ∧ i < buffer._data.length then
    some { buffer with _data := buffer._data.set i.toNat c }
  else none

/-- The method `color_buffer::get`: `_data[(_width * y) + x]`, `none` for an index outside the
vector. -/
def color_buffer.get (buffer : color_buffer) (x y : Int) : Option color :=
  let i := (buffer._width * y) + x
  if 0 ≤ i ∧ i < buffer._data.length then buffer._data.get? i.toNat else none

/-- The method `color_buffer::clear`: `memset` of the first `_width * _height` pixels to the
byte 255, so that each of their four channels is 255. -/
def color_buffer.clear (buffer : color_buffer) : color_buffer :=
  let n := (buffer._width * buffer._height).toNat
  { buffer with
    _data := List.replicate (min n buffer._data.length) ⟨255, 255, 255, 255⟩ ++ buffer._data.drop n }

/-- The struct `vertex`. -/
structure vertex (K : Type) where
  position : vec3 K
  normal : vec3 K

/-- The struct `triangle`. -/
structure triangle (K : Type) where
  a : vertex K
  b : vertex K
  c : vertex K

/-- The struct `mesh`. -/
structure mesh (K : Type) where
  transform : mat4 K
  triangles : List (triangle K)

variable {K : Type} [LinearOrderedField K] [FloorRing K]

/-- Truncation toward zero of an exact number: the integer part kept by a conversion of a
`float` to an integer type. -/
def to_int (x : K) : Int := if 0 ≤ x then ⌊x⌋ else ⌈x⌉

/-- The conversion `static_cast<int>(float)` of `rasterize_triangle` (graphics.h, lines
178-179) to the 32-bit `int`: truncation toward zero when the truncated number fits; beyond
that range the conversion is undefined in C++, and the x86 conversion instruction gives
`INT_MIN`, which is the value taken here. -/
def to_int32 (x : K) : Int :=
  if -2147483648 ≤ to_int x ∧ to_int x < 2147483648 then to_int x else -2147483648

/-- The conversion `static_cast<uint8_t>(float)`: truncation toward zero, kept modulo 256 (the
value of the cast whenever the truncated number is below 256; beyond that an 8-bit channel keeps
the low byte). -/
def to_uint8 (x : K) : Nat := (to_int x % 256).toNat

/-- The function `edge` (graphics.h, lines 134-139): the sign test of the 2x2 determinant, the
`float` operations taken as exact; `edge_rounded` is the same test with every operation
rounded. -/
def edge (a b c : vec2 K) : Bool :=
  decide ((c.x - a.x) * (b.y - a.y) - (c.y - a.y) * (b.x - a.x) ≥ 0)

/-- The function `barycentric` (graphics.h, lines 141-159). -/
def barycentric (p a b c : vec2 K) : vec3 K :=
  let v0 := b.sub a
  let v1 := c.sub a
  let v2 := p.sub a
  let d00 := dot2 v0 v0
  let d01 := dot2 v0 v1
  let d11 := dot2 v1 v1
  let d20 := dot2 v2 v0
  let d21 := dot2 v2 v1
  let denom := d00 * d11 - d01 * d01
  let v := (d11 * d20 - d01 * d21) / denom
  let w := (d00 * d21 - d01 * d20) / denom
  let u := 1 - v - w
  ⟨u, v, w⟩

/-- The values `i` with `lo ≤ i < hi` in increasing order: the iterations of
`for (int i = lo; i < hi; ++i)`. -/
def int_range (lo hi : Int) : List Int :=
  (List.range (hi - lo).toNat).map (fun (k : Nat) => lo + (k : Int))

/-- The loop `for (int i = lo; i < hi; ++i) body`, threading the state through the body. -/
def for_loop {σ : Type} (lo hi : Int) (s : σ) (body : σ → Int → Option σ) : Option σ :=
  (int_range lo hi).foldlM body s

/-- The call `std::minmax({x0, x1, x2})`: the smallest and the largest of the three. -/
def minmax3 (x0 x1 x2 : Int) : Int × Int := (min x0 (min x1 x2), max x0 (max x1 x2))

/-- The inside test of `rasterize_triangle` (graphics.h, lines 197-199) at the pixel
`(px, py)`, converted to `float` as on lines 190 and 194. -/
def inside (a b c : vertex K) (px py : Int) : Bool :=
  let pxf : K := (px : K)
  let pyf : K := (py : K)
  edge a.position.xy b.position.xy ⟨pxf, pyf⟩ &&
  edge b.position.xy c.position.xy ⟨pxf, pyf⟩ &&
  edge c.position.xy a.position.xy ⟨pxf, pyf⟩

/-- The value `n_dot_l` of `rasterize_triangle` (graphics.h, lines 201-211) at the pixel
`(px, py)`. -/
def n_dot_l (light_direction : vec3 K) (a b c : vertex K) (px py : Int) : K :=
  let pxf : K := (px : K)
  let pyf : K := (py : K)
  let bary := barycentric ⟨pxf, pyf⟩ a.position.xy b.position.xy c.position.xy
  let interpolated_normal :=
    ((a.normal.scale bary.x).add (b.normal.scale bary.y)).add (c.normal.scale bary.z)
  max (dot light_direction interpolated_normal) 0

/-- The colour handed to `buffer.set` by `rasterize_triangle` (graphics.h, lines 213-219) at the
pixel `(px, py)`; `bf`, `gf`, `rf` are the channels of the base colour as `float`. -/
def shaded_color (light_direction : vec3 K) (bf gf rf : K) (a b c : vertex K) (px py : Int) :
    color :=
  let s := n_dot_l light_direction a b c px py
  ⟨to_uint8 (bf * s), to_uint8 (gf * s), to_uint8 (rf * s), 255⟩

/-- The function `rasterize_triangle` (graphics.h, lines 161-224, `LINE_MODE` being 0). -/
def rasterize_triangle (sqrtf : K → K) (buffer : color_buffer) (a b c : vertex K)
    (col : color) : Option color_buffer :=
  let rf : K := (col.r : K)
  let gf : K := (col.g : K)
  let bf : K := (col.b : K)
  let bbox_x := minmax3 (to_int32 a.position.x) (to_int32 b.position.x) (to_int32 c.position.x)
  let bbox_y := minmax3 (to_int32 a.position.y) (to_int32 b.position.y) (to_int32 c.position.y)
  let bbox_x_first := max bbox_x.1 0
  let bbox_y_first := max bbox_y.1 0
  let bbox_x_second := min bbox_x.2 (buffer.width - 1)
  let bbox_y_second := min bbox_y.2 (buffer.height - 1)
  let light_direction : vec3 K := normalize sqrtf ⟨-1, 0, 1⟩
  for_loop bbox_y_first (bbox_y_second + 1) buffer (fun buffer py =>
    for_loop bbox_x_first (bbox_x_second + 1) buffer (fun buffer px =>
      if inside a b c px py then
        buffer.set px py (shaded_color light_direction bf gf rf a b c px py)
      else some buffer))

/-- The calls of `buffer.set` made by `rasterize_triangle` on a buffer of the given width and
height, in the order of the two loops: the pixel `(px, py)` and the colour.  Replaying them with
`apply_writes` is `rasterize_triangle` (`rasterize_triangle_eq_apply_writes`). -/
def rasterize_triangle_writes (sqrtf : K → K) (width height : Int) (a b c : vertex K)
    (col : color) : List (Int × Int × color) :=
  let rf : K := (col.r : K)
  let gf : K := (col.g : K)
  let bf : K := (col.b : K)
  let bbox_x := minmax3 (to_int32 a.position.x) (to_int32 b.position.x) (to_int32 c.position.x)
  let bbox_y := minmax3 (to_int32 a.position.y) (to_int32 b.position.y) (to_int32 c.position.y)
  let bbox_x_first := max bbox_x.1 0
  let bbox_y_first := max bbox_y.1 0
  let bbox_x_second := min bbox_x.2 (width - 1)
  let bbox_y_second := min bbox_y.2 (height - 1)
  let light_direction : vec3 K := normalize sqrtf ⟨-1, 0, 1⟩
  (int_range bbox_y_first (bbox_y_second + 1)).flatMap (fun py =>
    (int_range bbox_x_first (bbox_x_second + 1)).filterMap (fun px =>
      if inside a b c px py then
        some (px, py, shaded_color light_direction bf gf rf a b c px py)
      else none))

/-- The function `edge` (graphics.h, lines 134-139) with every `float` operation followed by the
rounding `rnd`: the two subtractions and the product of each term, and the final subtraction.
With `rnd = id` it is `edge`. -/
def edge_rounded (rnd : K → K) (a b c : vec2 K) : Bool :=
  decide (rnd (rnd (rnd (c.x - a.x) * rnd (b.y - a.y)) -
    rnd (rnd (c.y - a.y) * rnd (b.x - a.x))) ≥ 0)

/-- The inside test of `rasterize_triangle` (graphics.h, lines 190-199) with every `float`
operation followed by the rounding `rnd`, the conversions of `px` and `py` to `float`
included. -/
def inside_rounded (rnd : K → K) (a b c : vertex K) (px py : Int) : Bool :=
  let pxf : K := rnd (px : K)
  let pyf : K := rnd (py : K)
  edge_rounded rnd a.position.xy b.position.xy ⟨pxf, pyf⟩ &&
  edge_rounded rnd b.position.xy c.position.xy ⟨pxf, pyf⟩ &&
  edge_rounded rnd c.position.xy a.position.xy ⟨pxf, pyf⟩

/-- The pixels on which `rasterize_triangle` calls `buffer.set` (graphics.h, lines 178-213), in
the order of the two loops, when every `float` operation of the inside test is followed by the
rounding `rnd`.  With `rnd = id` they are the pixels of `rasterize_triangle_writes`
(`mem_pixels_id_iff`). -/
def rasterize_triangle_pixels (rnd : K → K) (width height : Int) (a b c : vertex K) :
    List (Int × Int) :=
  let bbox_x := minmax3 (to_int32 a.position.x) (to_int32 b.position.x) (to_int32 c.position.x)
  let bbox_y := minmax3 (to_int32 a.position.y) (to_int32 b.position.y) (to_int32 c.position.y)
  let bbox_x_first := max bbox_x.1 0
  let bbox_y_first := max bbox_y.1 0
  let bbox_x_second := min bbox_x.2 (width - 1)
  let bbox_y_second := min bbox_y.2 (height - 1)
  (int_range bbox_y_first (bbox_y_second + 1)).flatMap (fun py =>
    (int_range bbox_x_first (bbox_x_second + 1)).filterMap (fun px =>
      if inside_rounded rnd a b c px py then some (px, py) else none))

/-- The number of binary digits of `n` after the leading one, `⌊log₂ n⌋` for `n ≥ 1`, counted
by halving; `fuel` bounds the number of halvings and is taken as `n` itself. -/
def leading_bit : Nat → Nat → Nat
  | 0, _ => 0
  | fuel + 1, n => if 2 ≤ n then leading_bit fuel (n / 2) + 1 else 0

/-- The binary exponent of a non-zero rational `x`: the `e` with `2^e ≤ |x| < 2^(e+1)`, found
from the leading bits of the numerator and of the denominator. -/
def float_exponent (x : ℚ) : Int :=
  if (2 : ℚ) ^ ((leading_bit x.num.natAbs x.num.natAbs : Int) - (leading_bit x.den x.den : Int))
      ≤ |x| then
    (leading_bit x.num.natAbs x.num.natAbs : Int) - (leading_bit x.den x.den : Int)
  else (leading_bit x.num.natAbs x.num.natAbs : Int) - (leading_bit x.den x.den : Int) - 1

/-- The nearest integer to `x`, a tie going to the even one. -/
def round_half_even (x : ℚ) : Int :=
  if x - (⌊x⌋ : ℚ) < 1 / 2 then ⌊x⌋
  else if 1 / 2 < x - (⌊x⌋ : ℚ) then ⌊x⌋ + 1
  else if ⌊x⌋ % 2 = 0 then ⌊x⌋ else ⌊x⌋ + 1

/-- The rounding of an exact number to `float` (IEEE 754 binary32, round to nearest, ties to
even): a significand of 24 bits, so a spacing of `2^(e - 23)` in the binade of exponent `e`,
and the spacing `2^(-149)` of the subnormal numbers below `2^(-126)`; overflow beyond the
largest `float` is not modelled. -/
def round_float (x : ℚ) : ℚ :=
  if x = 0 then 0
  else (round_half_even (x / (2 : ℚ) ^ (max (float_exponent x) (-126) - 23)) : ℚ) *
    (2 : ℚ) ^ (max (float_exponent x) (-126) - 23)

/-- Replaying a list of `buffer.set` calls on a buffer. -/
def apply_writes (buffer : color_buffer) (ws : List (Int × Int × color)) : Option color_buffer :=
  ws.foldlM (fun buffer w => buffer.set w.1 w.2.1 w.2.2) buffer

/-- The arguments with which one iteration of the inner loop of `submit` (graphics.h, lines
240-268) calls `rasterize_triangle`, and `none` when the facing test of line 251 fails. -/
def submit_args (buffer_width buffer_height : K) (view_proj : mat4 K) (camera_forward : vec3 K)
    (m : mesh K) (t : triangle K) : Option (vertex K × vertex K × vertex K × color) :=
  let world_view_proj := multiply m.transform view_proj
  let a_ss := t.a
  let b_ss := t.b
  let c_ss := t.c
  let a_ss := { a_ss with normal := transform_vector m.transform a_ss.normal }
  let b_ss := { b_ss with normal := transform_vector m.transform b_ss.normal }
  let c_ss := { c_ss with normal := transform_vector m.transform c_ss.normal }
  if dot a_ss.normal camera_forward > 0 ∨ dot b_ss.normal camera_forward > 0 ∨
      dot c_ss.normal camera_forward > 0 then
    let a_ss := { a_ss with position := transform_point world_view_proj a_ss.position }
    let b_ss := { b_ss with position := transform_point world_view_proj b_ss.position }
    let c_ss := { c_ss with position := transform_point world_view_proj c_ss.position }
    let a_ss := { a_ss with position :=
      ((a_ss.position.add_scalar 1).div_scalar 2).mul ⟨buffer_width, buffer_height, 1⟩ }
    let b_ss := { b_ss with position :=
      ((b_ss.position.add_scalar 1).div_scalar 2).mul ⟨buffer_width, buffer_height, 1⟩ }
    let c_ss := { c_ss with position :=
      ((c_ss.position.add_scalar 1).div_scalar 2).mul ⟨buffer_width, buffer_height, 1⟩ }
    some (a_ss, b_ss, c_ss, ⟨0, 0, 255, 255⟩)
  else none

/-- One iteration of the inner loop of `submit` (graphics.h, lines 238-270): the triangle is
rasterized with the arguments of `submit_args`, or skipped. -/
def submit_triangle (sqrtf : K → K) (buffer_width buffer_height : K) (view_proj : mat4 K)
    (camera_forward : vec3 K) (buffer : color_buffer) (m : mesh K) (t : triangle K) :
    Option color_buffer :=
  match submit_args buffer_width buffer_height view_proj camera_forward m t with
  | some (a_ss, b_ss, c_ss, col) => rasterize_triangle sqrtf buffer a_ss b_ss c_ss col
  | none => some buffer

/-- The function `submit` (graphics.h, lines 226-272). -/
def submit (sqrtf : K → K) (buffer : color_buffer) (view_matrix proj_matrix : mat4 K)
    (meshes : List (mesh K)) : Option color_buffer :=
  let buffer_width : K := (buffer.width : K)
  let buffer_height : K := (buffer.height : K)
  let buffer := buffer.clear
  let view_proj := multiply view_matrix proj_matrix
  let camera_forward : vec3 K := ⟨view_matrix.r0.z, view_matrix.r1.z, view_matrix.r2.z⟩
  meshes.foldlM (fun buffer m =>
    m.triangles.foldlM (fun buffer t =>
      submit_triangle sqrtf buffer_width buffer_height view_proj camera_forward buffer m t)
      buffer) buffer

/-- The determinant `E(a, b, p) = (p.x - a.x) * (b.y - a.y) - (p.y - a.y) * (b.x - a.x)` of the
edge test; `E(a, b, c) > 0` is the accepted winding of a triangle. -/
def E (a b p : vec2 K) : K := (p.x - a.x) * (b.y - a.y) - (p.y - a.y) * (b.x - a.x)

/-- The closed triangle `abc`: the points `u * a + v * b + w * c` with non-negative weights of
sum 1. -/
def in_closed_triangle (a b c p : vec2 K) : Prop :=
  ∃ u v w : K, 0 ≤ u ∧ 0 ≤ v ∧ 0 ≤ w ∧ u + v + w = 1 ∧
    p.x = u * a.x + v * b.x + w * c.x ∧ p.y = u * a.y + v * b.y + w * c.y

/-- The pixel `(px, py)` is written by `rasterize_triangle`: one of its `buffer.set` calls is at
`(px, py)`. -/
def writes_pixel (sqrtf : K → K) (width height : Int) (a b c : vertex K) (col : color)
    (px py : Int) : Prop :=
  ∃ k : color, (px, py, k) ∈ rasterize_triangle_writes sqrtf width height a b c col

/-- No point of the closed triangle `abc` lies in the rectangle `[0, width) x [0, height)`: the
triangle is fully outside the bounds of a buffer of that size. -/
def outside_buffer (width height : Int) (a b c : vec2 K) : Prop :=
  ∀ q : vec2 K, in_closed_triangle a b c q →
    ¬ (0 ≤ q.x ∧ q.x < (width : K) ∧ 0 ≤ q.y ∧ q.y < (height : K))

/-- A screen-space vertex at `(x, y)` carrying the normal `(0, 0, -1)` of the concrete scenario of
the specification. -/
def scenario_vertex (x y : K) : vertex K := ⟨⟨x, y, 0⟩, ⟨0, 0, -1⟩⟩

/-- The shade of the specification at the pixel `(px, py)`:
`s = max (dot L (u * a.normal + v * b.normal + w * c.normal)) 0` with
`(u, v, w) = barycentric (p, a.xy, b.xy, c.xy)` and `L = normalize (-1, 0, 1)`, the interpolated
normal not being renormalized. -/
def spec_shade (sqrtf : K → K) (a b c : vertex K) (px py : Int) : K :=
  let uvw := barycentric ⟨(px : K), (py : K)⟩ a.position.xy b.position.xy c.position.xy
  let L : vec3 K := normalize sqrtf ⟨-1, 0, 1⟩
  max (dot L ⟨uvw.x * a.normal.x + uvw.y * b.normal.x + uvw.z * c.normal.x,
    uvw.x * a.normal.y + uvw.y * b.normal.y + uvw.z * c.normal.y,
    uvw.x * a.normal.z + uvw.y * b.normal.z + uvw.z * c.normal.z⟩) 0

/-- The calls of `rasterize_triangle` made by `submit`, in the order of its two loops (meshes in
sequence order, triangles in sequence order within a mesh): the arguments given by `submit_args`
for the triangles that pass the facing test. -/
def submit_calls (buffer : color_buffer) (view_matrix proj_matrix : mat4 K)
    (meshes : List (mesh K)) : List (vertex K × vertex K × vertex K × color) :=
  let buffer_width : K := (buffer.width : K)
  let buffer_height : K := (buffer.height : K)
  let view_proj := multiply view_matrix proj_matrix
  let camera_forward : vec3 K := ⟨view_matrix.r0.z, view_matrix.r1.z, view_matrix.r2.z⟩
  meshes.flatMap (fun m =>
    m.triangles.filterMap (fun t =>
      submit_args buffer_width buffer_height view_proj camera_forward m t))

/-- The calls of `buffer.set` made during `submit`, in order: those of each call of
`rasterize_triangle` in `submit_calls`.  Replaying them on the cleared buffer is `submit`
(`submit_eq_apply_writes`). -/
def submit_writes (sqrtf : K → K) (buffer : color_buffer) (view_matrix proj_matrix : mat4 K)
    (meshes : List (mesh K)) : List (Int × Int × color) :=
  (submit_calls buffer view_matrix proj_matrix meshes).flatMap (fun call =>
    rasterize_triangle_writes sqrtf buffer.width buffer.height call.1 call.2.1 call.2.2.1
      call.2.2.2)

/-- The screen position of the specification for normalized device coordinates `n`:
`screen = (n + 1) / 2 * (width, height, 1)`, component by component. -/
def spec_screen (width height : K) (n : vec3 K) : vec3 K :=
  ⟨(n.x + 1) / 2 * width, (n.y + 1) / 2 * height, (n.z + 1) / 2 * 1⟩

end graphics

namespace benchmark

variable {K : Type} [LinearOrderedField K]

/-- The struct `benchmark::sample` (benchmark.h, lines 78-81): the elapsed times of one name. -/
structure sample (K : Type) where
  _elapsed_times : List K

/-- The lookup of a name in the static map `_samples` (benchmark.h, line 83), a
`std::map<const char*, sample>` kept as the list of its entries in increasing key order; the
pointer `name` is its address. -/
def samples_find (name : Nat) : List (Nat × sample K) → Option (sample K)
  | [] => none
  | (key, s) :: rest => if name = key then some s else samples_find name rest

/-- The statement `_samples[_name]._elapsed_times.push_back(time_ms)` of the destructor
(benchmark.h, line 50): `operator[]` finds the entry of the name, or inserts an empty one at its
place in key order, and the time is appended to it. -/
def samples_push (name : Nat) (time_ms : K) : List (Nat × sample K) → List (Nat × sample K)
  | [] => [(name, ⟨[time_ms]⟩)]
  | (key, s) :: rest =>
    if name = key then (key, ⟨s._elapsed_times ++ [time_ms]⟩) :: rest
    else if name < key then (name, ⟨[time_ms]⟩) :: (key, s) :: rest
    else (key, s) :: samples_push name time_ms rest

/-- The state of the benchmark registry: the names of the `benchmark` objects that are
constructed and not yet destroyed (each owns a timer started by its constructor), and the static
map `_samples`. -/
structure state (K : Type) where
  live : List Nat
  _samples : List (Nat × sample K)

/-- The two operations on `benchmark` objects: the constructor `benchmark(name)` (benchmark.h,
lines 41-45) and the destructor (lines 47-51), whose `_timer.stop()` returns the elapsed time
`time_ms`. -/
inductive event (K : Type) where
  | construct (name : Nat) : event K
  | destroy (name : Nat) (time_ms : K) : event K

/-- One operation on the registry: the constructor adds a live object and leaves `_samples` as
it is; the destructor of a live object removes it and pushes its elapsed time; there is no
destructor call without a live object. -/
def step (s : state K) : event K → Option (state K)
  | event.construct name => some { s with live := name :: s.live }
  | event.destroy name time_ms =>
    if name ∈ s.live then
      some { live := s.live.erase name, _samples := samples_push name time_ms s._samples }
    else none

/-- The states reachable by constructing and destroying `benchmark` objects, from the empty
registry of program start. -/
def run (events : List (event K)) : Option (state K) :=
  events.foldlM step ⟨[], []⟩

/-- The number of destroyed `benchmark` objects of a name in a sequence of operations. -/
def destroyed (name : Nat) (events : List (event K)) : Nat :=
  events.countP (fun e =>
    match e with
    | event.construct _ => false
    | event.destroy n _ => decide (n = name))

/-- The figures `report` prints for one entry (benchmark.h, lines 57-70): the sample count, the
average `accumulate(begin, end, 0.0) / size`, `*min_element` and `*max_element`; `none` for an
empty entry, where the two dereferenced iterators are the end iterator. -/
def report_sample (times : List K) : Option (Nat × K × K × K) :=
  match times with
  | [] => none
  | t :: rest =>
    some ((t :: rest).length, (t :: rest).foldl (fun acc x => acc + x) 0 / ((t :: rest).length : K),
      rest.foldl min t, rest.foldl max t)

/-- The function `benchmark::report` (benchmark.h, lines 53-72): one line of figures for each
entry of `_samples`, in key order. -/
def report (samples : List (Nat × sample K)) : Option (List (Nat × Nat × K × K × K)) :=
  samples.mapM (fun entry =>
    (report_sample entry.2._elapsed_times).map (fun figures => (entry.1, figures)))

end benchmark

namespace graphics

open math

section conversions

variable {K : Type} [LinearOrderedField K] [FloorRing K]

/-! ## Loops and conversions -/

theorem mem_int_range (lo hi i : Int) : i ∈ int_range lo hi ↔ lo ≤ i ∧ i < hi := by
  unfold int_range
  simp only [List.mem_map, List.mem_range]
  constructor
  · rintro ⟨k, hk, rfl⟩
    omega
  · rintro ⟨h1, h2⟩
    refine ⟨(i - lo).toNat, ?_, ?_⟩ <;> omega

theorem to_int_mono {x y : K} (h : x ≤ y) : to_int x ≤ to_int y := by
  unfold to_int
  split_ifs with hx hy hy
  · exact Int.floor_mono h
  · exact absurd (le_trans hx h) hy
  · have h1 : ⌈x⌉ ≤ 0 := Int.ceil_le.mpr (by exact_mod_cast (le_of_lt (not_le.mp hx)))
    have h2 : (0 : Int) ≤ ⌊y⌋ := Int.floor_nonneg.mpr hy
    exact le_trans h1 h2
  · exact Int.ceil_mono h

theorem to_int_intCast (n : Int) : to_int (n : K) = n := by
  unfold to_int
  split_ifs <;> simp

theorem to_int_nonneg {x : K} (h : 0 ≤ x) : 0 ≤ to_int x := by
  have := to_int_mono h
  rwa [show to_int (0 : K) = 0 by simpa using to_int_intCast (K := K) 0] at this

theorem to_uint8_lt (x : K) : to_uint8 x < 256 := by
  unfold to_uint8
  omega

theorem to_uint8_eq {x : K} (h0 : 0 ≤ x) (h : x < 256) : (to_uint8 x : Int) = to_int x := by
  have h1 : 0 ≤ to_int x := to_int_nonneg h0
  have h2 : to_int x < 256 := by
    unfold to_int
    rw [if_pos h0]
    exact Int.floor_lt.mpr (by exact_mod_cast h)
  unfold to_uint8
  omega

end conversions

section edges

variable {K : Type} [LinearOrderedField K]

/-! ## The edge function -/

theorem edge_iff (a b p : vec2 K) : edge a b p = true ↔ 0 ≤ E a b p := by
  simp [edge, E]

theorem E_sum (a b c p : vec2 K) : E a b p + E b c p + E c a p = E a b c := by
  simp only [E]
  ring

theorem inside_iff (a b c : vertex K) (px py : Int) :
    inside a b c px py = true ↔
      (edge a.position.xy b.position.xy ⟨(px : K), (py : K)⟩ = true ∧
       edge b.position.xy c.position.xy ⟨(px : K), (py : K)⟩ = true ∧
       edge c.position.xy a.position.xy ⟨(px : K), (py : K)⟩ = true) := by
  simp [inside, and_assoc]

theorem inside_rounded_id (a b c : vertex K) (px py : Int) :
    inside_rounded id a b c px py = inside a b c px py := by
  simp only [inside_rounded, inside, edge_rounded, edge, id]

end edges

end graphics

namespace graphics

open math

section geometry

variable {K : Type} [LinearOrderedField K]

theorem E_cycle (a b c : vec2 K) : E b c a = E a b c := by
  simp only [E]
  ring

theorem E_weights_x (a b c p : vec2 K) :
    E a b c * p.x = E b c p * a.x + E c a p * b.x + E a b p * c.x := by
  simp only [E]
  ring

theorem E_weights_y (a b c p : vec2 K) :
    E a b c * p.y = E b c p * a.y + E c a p * b.y + E a b p * c.y := by
  simp only [E]
  ring

theorem closed_triangle_iff_edges (a b c p : vec2 K) (hw : 0 < E a b c) :
    in_closed_triangle a b c p ↔ (0 ≤ E a b p ∧ 0 ≤ E b c p ∧ 0 ≤ E c a p) := by
  constructor
  · rintro ⟨u, v, w, hu, hv, hw', hs, hx, hy⟩
    have hu' : u = 1 - v - w := by linarith
    have e1 : E a b p = w * E a b c := by
      simp only [E, hx, hy, hu']
      ring
    have e2 : E b c p = u * E a b c := by
      simp only [E, hx, hy, hu']
      ring
    have e3 : E c a p = v * E a b c := by
      simp only [E, hx, hy, hu']
      ring
    rw [e1, e2, e3]
    exact ⟨mul_nonneg hw' hw.le, mul_nonneg hu hw.le, mul_nonneg hv hw.le⟩
  · rintro ⟨h1, h2, h3⟩
    have hne : E a b c ≠ 0 := ne_of_gt hw
    refine ⟨E b c p / E a b c, E c a p / E a b c, E a b p / E a b c,
      div_nonneg h2 hw.le, div_nonneg h3 hw.le, div_nonneg h1 hw.le, ?_, ?_, ?_⟩
    · rw [← add_div, ← add_div, div_eq_one_iff_eq hne]
      have := E_sum a b c p
      linarith
    · have := E_weights_x a b c p
      field_simp
      linarith
    · have := E_weights_y a b c p
      field_simp
      linarith

end geometry

section raster

variable {K : Type} [LinearOrderedField K] [FloorRing K]

theorem mem_writes (sqrtf : K → K) (width height : Int) (a b c : vertex K) (col : color)
    (px py : Int) (k : color) :
    (px, py, k) ∈ rasterize_triangle_writes sqrtf width height a b c col ↔
      (max (minmax3 (to_int32 a.position.y) (to_int32 b.position.y)
          (to_int32 c.position.y)).1 0 ≤ py ∧
        py ≤ min (minmax3 (to_int32 a.position.y) (to_int32 b.position.y)
          (to_int32 c.position.y)).2
          (height - 1)) ∧
      (max (minmax3 (to_int32 a.position.x) (to_int32 b.position.x)
          (to_int32 c.position.x)).1 0 ≤ px ∧
        px ≤ min (minmax3 (to_int32 a.position.x) (to_int32 b.position.x)
          (to_int32 c.position.x)).2
          (width - 1)) ∧
      inside a b c px py = true ∧
      k = shaded_color (normalize sqrtf ⟨-1, 0, 1⟩) (col.b : K) (col.g : K) (col.r : K)
        a b c px py := by
  unfold rasterize_triangle_writes
  simp only [List.mem_flatMap, List.mem_filterMap, mem_int_range]
  constructor
  · rintro ⟨y, ⟨hy1, hy2⟩, x, ⟨hx1, hx2⟩, h⟩
    split_ifs at h with hin
    simp only [Option.some.injEq, Prod.mk.injEq] at h
    obtain ⟨rfl, rfl, rfl⟩ := h
    exact ⟨⟨hy1, by omega⟩, ⟨hx1, by omega⟩, hin, rfl⟩
  · rintro ⟨⟨hy1, hy2⟩, ⟨hx1, hx2⟩, hin, rfl⟩
    refine ⟨py, ⟨hy1, by omega⟩, px, ⟨hx1, by omega⟩, ?_⟩
    rw [if_pos hin]

theorem writes_pixel_iff (sqrtf : K → K) (width height : Int) (a b c : vertex K) (col : color)
    (px py : Int) :
    writes_pixel sqrtf width height a b c col px py ↔
      (max (min (to_int32 a.position.y) (min (to_int32 b.position.y)
          (to_int32 c.position.y))) 0 ≤ py ∧
        py ≤ min (max (to_int32 a.position.y) (max (to_int32 b.position.y)
          (to_int32 c.position.y)))
          (height - 1)) ∧
      (max (min (to_int32 a.position.x) (min (to_int32 b.position.x)
          (to_int32 c.position.x))) 0 ≤ px ∧
        px ≤ min (max (to_int32 a.position.x) (max (to_int32 b.position.x)
          (to_int32 c.position.x)))
          (width - 1)) ∧
      inside a b c px py = true := by
  unfold writes_pixel
  simp only [mem_writes, minmax3]
  constructor
  · rintro ⟨k, h1, h2, h3, _⟩
    exact ⟨h1, h2, h3⟩
  · rintro ⟨h1, h2, h3⟩
    exact ⟨_, h1, h2, h3, rfl⟩

theorem mem_pixels (rnd : K → K) (width height : Int) (a b c : vertex K) (px py : Int) :
    (px, py) ∈ rasterize_triangle_pixels rnd width height a b c ↔
      (max (min (to_int32 a.position.y) (min (to_int32 b.position.y) (to_int32 c.position.y)))
          0 ≤ py ∧
        py ≤ min (max (to_int32 a.position.y) (max (to_int32 b.position.y)
          (to_int32 c.position.y))) (height - 1)) ∧
      (max (min (to_int32 a.position.x) (min (to_int32 b.position.x) (to_int32 c.position.x)))
          0 ≤ px ∧
        px ≤ min (max (to_int32 a.position.x) (max (to_int32 b.position.x)
          (to_int32 c.position.x))) (width - 1)) ∧
      inside_rounded rnd a b c px py = true := by
  unfold rasterize_triangle_pixels
  simp only [List.mem_flatMap, List.mem_filterMap, mem_int_range, minmax3]
  constructor
  · rintro ⟨y, ⟨hy1, hy2⟩, x, ⟨hx1, hx2⟩, h⟩
    split_ifs at h with hin
    simp only [Option.some.injEq, Prod.mk.injEq] at h
    obtain ⟨rfl, rfl⟩ := h
    exact ⟨⟨hy1, by omega⟩, ⟨hx1, by omega⟩, hin⟩
  · rintro ⟨⟨hy1, hy2⟩, ⟨hx1, hx2⟩, hin⟩
    refine ⟨py, ⟨hy1, by omega⟩, px, ⟨hx1, by omega⟩, ?_⟩
    rw [if_pos hin]

theorem mem_pixels_id_iff (sqrtf : K → K) (width height : Int) (a b c : vertex K) (col : color)
    (px py : Int) :
    (px, py) ∈ rasterize_triangle_pixels id width height a b c ↔
      writes_pixel sqrtf width height a b c col px py := by
  rw [mem_pixels, writes_pixel_iff, inside_rounded_id]

end raster

end graphics

namespace graphics

open math

section replay

variable {K : Type} [LinearOrderedField K] [FloorRing K]

theorem row_loop_eq (P : Int → Bool) (f : Int → color) (py : Int) (xs : List Int)
    (buffer : color_buffer) :
    xs.foldlM (fun buffer px => if P px then buffer.set px py (f px) else some buffer) buffer =
      apply_writes buffer
        (xs.filterMap (fun px => if P px then some (px, py, f px) else none)) := by
  induction xs generalizing buffer with
  | nil => rfl
  | cons x xs ih =>
    by_cases hP : P x = true
    · simp only [List.foldlM_cons, hP, if_true, List.filterMap_cons, apply_writes]
      cases hs : buffer.set x py (f x) with
      | none => rfl
      | some b' =>
        simp only [Option.some_bind, Option.bind_eq_bind]
        exact ih b'
    · simp only [List.foldlM_cons, hP, List.filterMap_cons, apply_writes]
      simp only [Bool.false_eq_true, if_false, Option.pure_def, Option.bind_eq_bind,
        Option.some_bind]
      exact ih buffer

theorem apply_writes_append (buffer : color_buffer) (l1 l2 : List (Int × Int × color)) :
    apply_writes buffer (l1 ++ l2) = (apply_writes buffer l1).bind (fun b => apply_writes b l2) := by
  simp only [apply_writes, List.foldlM_append, Option.bind_eq_bind]

theorem loops_eq (P : Int → Int → Bool) (f : Int → Int → color) (xs ys : List Int)
    (buffer : color_buffer) :
    ys.foldlM (fun buffer py =>
      xs.foldlM (fun buffer px =>
        if P px py then buffer.set px py (f px py) else some buffer) buffer) buffer =
      apply_writes buffer
        (ys.flatMap (fun py =>
          xs.filterMap (fun px => if P px py then some (px, py, f px py) else none))) := by
  induction ys generalizing buffer with
  | nil => rfl
  | cons y ys ih =>
    rw [List.foldlM_cons, List.flatMap_cons, apply_writes_append,
      row_loop_eq (fun px => P px y) (fun px => f px y) y xs buffer]
    cases apply_writes buffer
        (xs.filterMap (fun px => if P px y then some (px, y, f px y) else none)) with
    | none => rfl
    | some b' =>
      simp only [Option.some_bind, Option.bind_eq_bind]
      exact ih b'

theorem rasterize_triangle_eq_apply_writes (sqrtf : K → K) (buffer : color_buffer)
    (a b c : vertex K) (col : color) :
    rasterize_triangle sqrtf buffer a b c col =
      apply_writes buffer
        (rasterize_triangle_writes sqrtf buffer.width buffer.height a b c col) := by
  unfold rasterize_triangle rasterize_triangle_writes for_loop
  exact loops_eq _ _ _ _ buffer

end replay

end graphics

namespace graphics

open math

section claims_raster

variable {K : Type} [LinearOrderedField K] [FloorRing K]

theorem writes_nil_of_opposite_winding (sqrtf : K → K) (width height : Int) (a b c : vertex K)
    (col : color) (hw : E a.position.xy b.position.xy c.position.xy < 0) :
    rasterize_triangle_writes sqrtf width height a b c col = [] := by
  rw [List.eq_nil_iff_forall_not_mem]
  rintro ⟨px, py, k⟩ hmem
  rw [mem_writes] at hmem
  obtain ⟨_, _, hin, _⟩ := hmem
  rw [inside_iff] at hin
  simp only [edge_iff] at hin
  have := E_sum a.position.xy b.position.xy c.position.xy ⟨(px : K), (py : K)⟩
  linarith [hin.1, hin.2.1, hin.2.2]

theorem apply_writes_nil (buffer : color_buffer) : apply_writes buffer [] = some buffer := rfl

theorem pixels_id_nil_of_writes_nil (sqrtf : K → K) (width height : Int) (a b c : vertex K)
    (col : color) (h : rasterize_triangle_writes sqrtf width height a b c col = []) :
    rasterize_triangle_pixels id width height a b c = [] := by
  rw [List.eq_nil_iff_forall_not_mem]
  rintro ⟨px, py⟩ hmem
  rw [mem_pixels_id_iff sqrtf width height a b c col] at hmem
  obtain ⟨k, hk⟩ := hmem
  rw [h] at hk
  exact absurd hk (List.not_mem_nil _)

/-- C2 (amended): with the coordinates and the determinants of `edge` taken as exact numbers,
for a triangle of the opposite winding no point passes the three edge tests, so
`rasterize_triangle` writes no pixel, whatever the size of the buffer, and returns the buffer as it
was; the list of written pixels with the identity as the rounding is empty. -/
theorem C2_opposite_winding_writes_nothing (sqrtf : K → K) (a b c : vertex K)
    (hw : E a.position.xy b.position.xy c.position.xy < 0) :
    (∀ p : vec2 K, ¬ (edge a.position.xy b.position.xy p = true ∧
      edge b.position.xy c.position.xy p = true ∧ edge c.position.xy a.position.xy p = true)) ∧
    (∀ (width height : Int) (col : color),
      rasterize_triangle_writes sqrtf width height a b c col = []) ∧
    (∀ (buffer : color_buffer) (col : color),
      rasterize_triangle sqrtf buffer a b c col = some buffer) ∧
    (∀ (width height : Int), rasterize_triangle_pixels id width height a b c = []) := by
  refine ⟨?_, ?_, ?_, ?_⟩
  · intro p h
    simp only [edge_iff] at h
    have := E_sum a.position.xy b.position.xy c.position.xy p
    linarith [h.1, h.2.1, h.2.2]
  · intro width height col
    exact writes_nil_of_opposite_winding sqrtf width height a b c col hw
  · intro buffer col
    rw [rasterize_triangle_eq_apply_writes, writes_nil_of_opposite_winding sqrtf _ _ a b c col hw]
    rfl
  · intro width height
    exact pixels_id_nil_of_writes_nil sqrtf width height a b c color.white
      (writes_nil_of_opposite_winding sqrtf width height a b c color.white hw)

/-- C3 (amended): with the coordinates and the determinants of `edge` taken as exact numbers,
for a non-degenerate triangle no point of which lies in the rectangle of the buffer,
`rasterize_triangle` calls `set` on no pixel and returns the buffer unchanged; the list of
written pixels with the identity as the rounding is empty. -/
theorem C3_outside_nondegenerate_writes_nothing (sqrtf : K → K) (buffer : color_buffer)
    (a b c : vertex K) (col : color)
    (hne : E a.position.xy b.position.xy c.position.xy ≠ 0)
    (hout : outside_buffer buffer.width buffer.height a.position.xy b.position.xy
      c.position.xy) :
    rasterize_triangle_writes sqrtf buffer.width buffer.height a b c col = [] ∧
    rasterize_triangle sqrtf buffer a b c col = some buffer ∧
    rasterize_triangle_pixels id buffer.width buffer.height a b c = [] := by
  have hnil : rasterize_triangle_writes sqrtf buffer.width buffer.height a b c col = [] := by
    rcases lt_or_gt_of_ne hne with hneg | hpos
    · exact writes_nil_of_opposite_winding sqrtf _ _ a b c col hneg
    · rw [List.eq_nil_iff_forall_not_mem]
      rintro ⟨px, py, k⟩ hmem
      rw [mem_writes] at hmem
      obtain ⟨⟨hy1, hy2⟩, ⟨hx1, hx2⟩, hin, _⟩ := hmem
      have hx0 : 0 ≤ px := le_trans (le_max_right _ _) hx1
      have hy0 : 0 ≤ py := le_trans (le_max_right _ _) hy1
      have hxw : px < buffer.width := by
        have := le_trans hx2 (min_le_right _ _)
        omega
      have hyh : py < buffer.height := by
        have := le_trans hy2 (min_le_right _ _)
        omega
      rw [inside_iff] at hin
      simp only [edge_iff] at hin
      have htri : in_closed_triangle a.position.xy b.position.xy c.position.xy
          ⟨(px : K), (py : K)⟩ :=
        (closed_triangle_iff_edges _ _ _ _ hpos).mpr ⟨hin.1, hin.2.1, hin.2.2⟩
      refine hout _ htri ⟨?_, ?_, ?_, ?_⟩
      · show (0 : K) ≤ (px : K)
        exact_mod_cast hx0
      · show (px : K) < (buffer.width : K)
        exact_mod_cast hxw
      · show (0 : K) ≤ (py : K)
        exact_mod_cast hy0
      · show (py : K) < (buffer.height : K)
        exact_mod_cast hyh
  refine ⟨hnil, ?_, pixels_id_nil_of_writes_nil sqrtf _ _ a b c col hnil⟩
  rw [rasterize_triangle_eq_apply_writes, hnil]
  rfl

end claims_raster

end graphics

namespace graphics

open math

/-- C2, witness: the triangle `(10, 10)`, `(50, 10)`, `(10, 50)` has the opposite winding and
no `set` call is made on a 64x64 buffer. -/
theorem C2_opposite_winding_witness :
    rasterize_triangle_writes Real.sqrt 64 64 (scenario_vertex (10 : ℝ) 10)
      (scenario_vertex 50 10) (scenario_vertex 10 50) color.white = [] :=
  (C2_opposite_winding_writes_nothing Real.sqrt (scenario_vertex 10 10) (scenario_vertex 50 10)
    (scenario_vertex 10 50) (by norm_num [E, vec3.xy, scenario_vertex])).2.1 64 64 color.white

/-- C2, counterexample: the triangle `(1, 0)`, `(-1, -5/4)`, `(1, -2^-25)`, whose coordinates are
`float` values, has the opposite winding (`E = -2^-24`, and the determinant evaluated in `float`
arithmetic is negative too), but in `float` arithmetic the difference `-2^-25 - (-5/4)` rounds to
`5/4`, the three edge tests give `0 >= 0` at the pixel `(1, 0)`, and `rasterize_triangle` writes
that pixel of a 4x4 buffer. -/
theorem C2_counterexample :
    E (scenario_vertex (1 : ℚ) 0).position.xy (scenario_vertex (-1) (-5/4)).position.xy
      (scenario_vertex 1 (-1/33554432)).position.xy < 0 ∧
    edge_rounded round_float (scenario_vertex (1 : ℚ) 0).position.xy
      (scenario_vertex (-1) (-5/4)).position.xy
      (scenario_vertex 1 (-1/33554432)).position.xy = false ∧
    (round_float (-5/4) = -5/4 ∧ round_float (-1/33554432) = -1/33554432) ∧
    (1, 0) ∈ rasterize_triangle_pixels round_float 4 4 (scenario_vertex (1 : ℚ) 0)
      (scenario_vertex (-1) (-5/4)) (scenario_vertex 1 (-1/33554432)) := by
  refine ⟨?_, ?_, ⟨?_, ?_⟩, ?_⟩
  · decide!
  · decide!
  · decide!
  · decide!
  · decide!

theorem to_int_neg_frac {K : Type} [LinearOrderedField K] [FloorRing K] {x : K} (h1 : -1 < x)
    (h2 : x < 0) : to_int x = 0 := by
  unfold to_int
  rw [if_neg (not_le.mpr h2), Int.ceil_eq_iff]
  constructor
  · simpa using h1
  · simpa using h2.le

/-- C3, counterexample: the degenerate triangle with the collinear vertices `(-1/2, -1/2)`,
`(-1/4, -1/4)`, `(-3/4, -3/4)` has no point in the rectangle of an 8x8 buffer, and
`rasterize_triangle` calls `set` on the pixel `(0, 0)`; and the non-degenerate triangle
`(0, -1/2)`, `(1, -2^-30)`, `(1, -1/2)`, whose coordinates are `float` values and every point of
which has a negative `y`, has no point in the rectangle of a 4x4 buffer, and with the determinants
evaluated in `float` arithmetic `rasterize_triangle` writes exactly the pixel `(1, 0)`. -/
theorem C3_counterexample :
    (outside_buffer 8 8 (scenario_vertex (-1/2 : ℝ) (-1/2)).position.xy
      (scenario_vertex (-1/4 : ℝ) (-1/4)).position.xy
      (scenario_vertex (-3/4 : ℝ) (-3/4)).position.xy ∧
    writes_pixel Real.sqrt 8 8 (scenario_vertex (-1/2 : ℝ) (-1/2))
      (scenario_vertex (-1/4) (-1/4)) (scenario_vertex (-3/4) (-3/4)) color.white 0 0) ∧
    (outside_buffer 4 4 (scenario_vertex (0 : ℚ) (-1/2)).position.xy
      (scenario_vertex (1 : ℚ) (-1/1073741824)).position.xy
      (scenario_vertex (1 : ℚ) (-1/2)).position.xy ∧
    E (scenario_vertex (0 : ℚ) (-1/2)).position.xy
      (scenario_vertex (1 : ℚ) (-1/1073741824)).position.xy
      (scenario_vertex (1 : ℚ) (-1/2)).position.xy ≠ 0 ∧
    round_float (-1/1073741824) = -1/1073741824 ∧
    rasterize_triangle_pixels round_float 4 4 (scenario_vertex (0 : ℚ) (-1/2))
      (scenario_vertex 1 (-1/1073741824)) (scenario_vertex 1 (-1/2)) = [(1, 0)]) := by
  refine ⟨⟨?_, ?_⟩, ?_, ?_, ?_, ?_⟩
  · rintro q ⟨u, v, w, hu, hv, hw, hs, hx, hy⟩ ⟨h0, _, _, _⟩
    simp only [scenario_vertex, vec3.xy] at hx
    linarith
  · rw [writes_pixel_iff]
    have e1 : to_int (-1/2 : ℝ) = 0 := to_int_neg_frac (by norm_num) (by norm_num)
    have e2 : to_int (-1/4 : ℝ) = 0 := to_int_neg_frac (by norm_num) (by norm_num)
    have e3 : to_int (-3/4 : ℝ) = 0 := to_int_neg_frac (by norm_num) (by norm_num)
    simp only [scenario_vertex, to_int32, e1, e2, e3]
    refine ⟨by decide, by decide, ?_⟩
    rw [inside_iff]
    simp only [edge_iff, E, vec3.xy]
    norm_num
  · rintro q ⟨u, v, w, hu, hv, hw, hs, hx, hy⟩ ⟨_, _, h0, _⟩
    simp only [scenario_vertex, vec3.xy] at hy
    have h1 : 0 ≤ u * (1/2 : ℚ) := by positivity
    have h2 : 0 ≤ v * (1/1073741824 : ℚ) := by positivity
    have h3 : 0 ≤ w * (1/2 : ℚ) := by positivity
    have h4 : 0 < u * (1/2 : ℚ) + v * (1/1073741824) + w * (1/2) := by
      have : (1/1073741824 : ℚ) * (u + v + w) ≤
          u * (1/2 : ℚ) + v * (1/1073741824) + w * (1/2) := by nlinarith
      rw [hs] at this
      linarith
    linarith
  · decide!
  · decide!
  · decide!

/-- C3, witness: the non-degenerate triangle `(-1/2, -1/2)`, `(-1/2, -1/4)`, `(-1/4, -1/2)`,
whose coordinates all truncate to 0, lies outside an 8x8 buffer and no `set` call is made. -/
theorem C3_outside_nondegenerate_witness :
    rasterize_triangle_writes Real.sqrt (color_buffer.create 8 8).width
        (color_buffer.create 8 8).height (scenario_vertex (-1/2 : ℝ) (-1/2))
        (scenario_vertex (-1/2) (-1/4)) (scenario_vertex (-1/4) (-1/2)) color.white = [] ∧
      rasterize_triangle Real.sqrt (color_buffer.create 8 8) (scenario_vertex (-1/2 : ℝ) (-1/2))
        (scenario_vertex (-1/2) (-1/4)) (scenario_vertex (-1/4) (-1/2)) color.white =
        some (color_buffer.create 8 8) ∧
      rasterize_triangle_pixels id (color_buffer.create 8 8).width
        (color_buffer.create 8 8).height (scenario_vertex (-1/2 : ℝ) (-1/2))
        (scenario_vertex (-1/2) (-1/4)) (scenario_vertex (-1/4) (-1/2)) = [] :=
  C3_outside_nondegenerate_writes_nothing Real.sqrt (color_buffer.create 8 8)
    (scenario_vertex (-1/2) (-1/2)) (scenario_vertex (-1/2) (-1/4))
    (scenario_vertex (-1/4) (-1/2)) color.white (by norm_num [E, vec3.xy, scenario_vertex])
    (by
      rintro q ⟨u, v, w, hu, hv, hw, hs, hx, hy⟩ ⟨h0, _, _, _⟩
      simp only [scenario_vertex, vec3.xy] at hx
      linarith)

end graphics

namespace graphics

open math

section claims_safety

variable {K : Type} [LinearOrderedField K] [FloorRing K]

theorem apply_writes_in_range (ws : List (Int × Int × color)) (buffer : color_buffer)
    (h : ∀ w ∈ ws, 0 ≤ buffer._width * w.2.1 + w.1 ∧
      buffer._width * w.2.1 + w.1 < buffer._data.length) :
    ∃ b' : color_buffer, apply_writes buffer ws = some b' ∧ b'._width = buffer._width ∧
      b'._height = buffer._height ∧ b'._data.length = buffer._data.length := by
  induction ws generalizing buffer with
  | nil => exact ⟨buffer, rfl, rfl, rfl, rfl⟩
  | cons w ws ih =>
    have hw := h w (List.mem_cons_self _ _)
    have hset : buffer.set w.1 w.2.1 w.2.2 =
        some { buffer with _data := buffer._data.set (buffer._width * w.2.1 + w.1).toNat w.2.2 } := by
      unfold color_buffer.set
      simp only [hw, and_self, if_true]
    obtain ⟨b', hb, h1, h2, h3⟩ :=
      ih { buffer with _data := buffer._data.set (buffer._width * w.2.1 + w.1).toNat w.2.2 }
        (by
          intro w' hw'
          simpa using h w' (List.mem_cons_of_mem _ hw'))
    refine ⟨b', ?_, h1, h2, ?_⟩
    · simp only [apply_writes, List.foldlM_cons, hset, Option.bind_eq_bind, Option.some_bind]
      exact hb
    · simpa using h3

theorem writes_in_bounds (sqrtf : K → K) (width height : Int) (a b c : vertex K) (col : color)
    (px py : Int) (k : color)
    (hmem : (px, py, k) ∈ rasterize_triangle_writes sqrtf width height a b c col) :
    0 ≤ px ∧ px ≤ width - 1 ∧ 0 ≤ py ∧ py ≤ height - 1 ∧
      0 ≤ width * py + px ∧ width * py + px < width * height := by
  rw [mem_writes] at hmem
  obtain ⟨⟨hy1, hy2⟩, ⟨hx1, hx2⟩, _, _⟩ := hmem
  have hx0 : 0 ≤ px := le_trans (le_max_right _ _) hx1
  have hy0 : 0 ≤ py := le_trans (le_max_right _ _) hy1
  have hxw : px ≤ width - 1 := le_trans hx2 (min_le_right _ _)
  have hyh : py ≤ height - 1 := le_trans hy2 (min_le_right _ _)
  have hw0 : 0 ≤ width := by omega
  have m1 : 0 ≤ width * py := mul_nonneg hw0 hy0
  have m2 : width * py ≤ width * (height - 1) := mul_le_mul_of_nonneg_left hyh hw0
  have m3 : width * (height - 1) = width * height - width := by ring
  refine ⟨hx0, hxw, hy0, hyh, by omega, by omega⟩

/-- C4: on a buffer with width and height at least 1 (and the `width * height` pixels its
constructor allocates), every `set` call of `rasterize_triangle` has `0 ≤ px ≤ width - 1` and
`0 ≤ py ≤ height - 1`, its index `width * py + px` is below `width * height`, and the run never
reaches an index outside the pixel vector: it returns a buffer. -/
theorem C4_pixel_access_in_bounds (sqrtf : K → K) (buffer : color_buffer) (a b c : vertex K)
    (col : color) (hw : 1 ≤ buffer.width) (hh : 1 ≤ buffer.height)
    (hd : (buffer._data.length : Int) = buffer.width * buffer.height) :
    (∀ (px py : Int) (k : color),
      (px, py, k) ∈ rasterize_triangle_writes sqrtf buffer.width buffer.height a b c col →
        0 ≤ px ∧ px ≤ buffer.width - 1 ∧ 0 ≤ py ∧ py ≤ buffer.height - 1 ∧
        0 ≤ buffer.width * py + px ∧ buffer.width * py + px < buffer.width * buffer.height) ∧
    (∃ b' : color_buffer, rasterize_triangle sqrtf buffer a b c col = some b' ∧
      b'.width = buffer.width ∧ b'.height = buffer.height) := by
  have hw1 : 0 < buffer.width * buffer.height := mul_pos (by omega) (by omega)
  refine ⟨fun px py k hmem => writes_in_bounds sqrtf _ _ a b c col px py k hmem, ?_⟩
  rw [rasterize_triangle_eq_apply_writes]
  obtain ⟨b', hb, h1, h2, _⟩ := apply_writes_in_range
    (rasterize_triangle_writes sqrtf buffer.width buffer.height a b c col) buffer
    (by
      rintro ⟨px, py, k⟩ hmem
      have := writes_in_bounds sqrtf _ _ a b c col px py k hmem
      rw [hd]
      exact ⟨this.2.2.2.2.1, this.2.2.2.2.2⟩)
  exact ⟨b', hb, h1, h2⟩

/-- C4, witness: a triangle reaching beyond all four sides of a freshly constructed 8x8
buffer. -/
theorem C4_pixel_access_witness :
    (∀ (px py : Int) (k : color),
      (px, py, k) ∈ rasterize_triangle_writes Real.sqrt (color_buffer.create 8 8).width
          (color_buffer.create 8 8).height (scenario_vertex (-3 : ℝ) (-3))
          (scenario_vertex (-3) 20) (scenario_vertex 20 (-3)) color.white →
        0 ≤ px ∧ px ≤ (color_buffer.create 8 8).width - 1 ∧ 0 ≤ py ∧
        py ≤ (color_buffer.create 8 8).height - 1 ∧
        0 ≤ (color_buffer.create 8 8).width * py + px ∧
        (color_buffer.create 8 8).width * py + px <
          (color_buffer.create 8 8).width * (color_buffer.create 8 8).height) ∧
    (∃ b' : color_buffer, rasterize_triangle Real.sqrt (color_buffer.create 8 8)
        (scenario_vertex (-3 : ℝ) (-3)) (scenario_vertex (-3) 20) (scenario_vertex 20 (-3))
        color.white = some b' ∧
      b'.width = (color_buffer.create 8 8).width ∧
      b'.height = (color_buffer.create 8 8).height) :=
  C4_pixel_access_in_bounds Real.sqrt (color_buffer.create 8 8) (scenario_vertex (-3) (-3))
    (scenario_vertex (-3) 20) (scenario_vertex 20 (-3)) color.white (by decide) (by decide)
    (by decide)

end claims_safety

section claims_barycentric

variable {K : Type} [LinearOrderedField K]

theorem barycentric_denom (a b c : vec2 K) :
    dot2 (b.sub a) (b.sub a) * dot2 (c.sub a) (c.sub a) -
      dot2 (b.sub a) (c.sub a) * dot2 (b.sub a) (c.sub a) = E a b c * E a b c := by
  simp only [dot2, vec2.sub, E]
  ring

theorem barycentric_y (p a b c : vec2 K) (hne : E a b c ≠ 0) :
    (barycentric p a b c).y = E c a p / E a b c := by
  have hd : E a b c * E a b c ≠ 0 := mul_ne_zero hne hne
  rw [← barycentric_denom] at hd
  simp only [barycentric]
  rw [div_eq_div_iff hd hne]
  simp only [dot2, vec2.sub, E]
  ring

theorem barycentric_z (p a b c : vec2 K) (hne : E a b c ≠ 0) :
    (barycentric p a b c).z = E a b p / E a b c := by
  have hd : E a b c * E a b c ≠ 0 := mul_ne_zero hne hne
  rw [← barycentric_denom] at hd
  simp only [barycentric]
  rw [div_eq_div_iff hd hne]
  simp only [dot2, vec2.sub, E]
  ring

theorem barycentric_sum (p a b c : vec2 K) :
    (barycentric p a b c).x + (barycentric p a b c).y + (barycentric p a b c).z = 1 := by
  simp only [barycentric]
  ring

theorem barycentric_x (p a b c : vec2 K) (hne : E a b c ≠ 0) :
    (barycentric p a b c).x = E b c p / E a b c := by
  have hs := barycentric_sum p a b c
  have hy := barycentric_y p a b c hne
  have hz := barycentric_z p a b c hne
  have hE := E_sum a b c p
  have : E b c p / E a b c = 1 - E c a p / E a b c - E a b p / E a b c := by
    field_simp
    linarith
  rw [this, ← hy, ← hz]
  linarith

/-- C5: for non-collinear `a`, `b`, `c` the denominator of `barycentric` is not zero, and the
result `(u, v, w)` satisfies `u + v + w = 1` and `u * a + v * b + w * c = p`: `u` is the weight of
`a`, `v` of `b` and `w` of `c`. -/
theorem C5_barycentric_true_coordinates (p a b c : vec2 K) (hne : E a b c ≠ 0) :
    dot2 (b.sub a) (b.sub a) * dot2 (c.sub a) (c.sub a) -
      dot2 (b.sub a) (c.sub a) * dot2 (b.sub a) (c.sub a) ≠ 0 ∧
    (barycentric p a b c).x + (barycentric p a b c).y + (barycentric p a b c).z = 1 ∧
    (barycentric p a b c).x * a.x + (barycentric p a b c).y * b.x +
      (barycentric p a b c).z * c.x = p.x ∧
    (barycentric p a b c).x * a.y + (barycentric p a b c).y * b.y +
      (barycentric p a b c).z * c.y = p.y := by
  refine ⟨?_, barycentric_sum p a b c, ?_, ?_⟩
  · rw [barycentric_denom]
    exact mul_ne_zero hne hne
  · rw [barycentric_x p a b c hne, barycentric_y p a b c hne, barycentric_z p a b c hne]
    have := E_weights_x a b c p
    field_simp
    linarith
  · rw [barycentric_x p a b c hne, barycentric_y p a b c hne, barycentric_z p a b c hne]
    have := E_weights_y a b c p
    field_simp
    linarith

/-- C5, witness: the point `(1, 2)` in the triangle `(0, 0)`, `(0, 4)`, `(4, 0)`. -/
theorem C5_barycentric_witness :
    dot2 (vec2.sub (⟨0, 4⟩ : vec2 ℚ) ⟨0, 0⟩) (vec2.sub ⟨0, 4⟩ ⟨0, 0⟩) *
        dot2 (vec2.sub (⟨4, 0⟩ : vec2 ℚ) ⟨0, 0⟩) (vec2.sub ⟨4, 0⟩ ⟨0, 0⟩) -
      dot2 (vec2.sub (⟨0, 4⟩ : vec2 ℚ) ⟨0, 0⟩) (vec2.sub ⟨4, 0⟩ ⟨0, 0⟩) *
        dot2 (vec2.sub (⟨0, 4⟩ : vec2 ℚ) ⟨0, 0⟩) (vec2.sub ⟨4, 0⟩ ⟨0, 0⟩) ≠ 0 ∧
    (barycentric (⟨1, 2⟩ : vec2 ℚ) ⟨0, 0⟩ ⟨0, 4⟩ ⟨4, 0⟩).x +
      (barycentric (⟨1, 2⟩ : vec2 ℚ) ⟨0, 0⟩ ⟨0, 4⟩ ⟨4, 0⟩).y +
      (barycentric (⟨1, 2⟩ : vec2 ℚ) ⟨0, 0⟩ ⟨0, 4⟩ ⟨4, 0⟩).z = 1 ∧
    (barycentric (⟨1, 2⟩ : vec2 ℚ) ⟨0, 0⟩ ⟨0, 4⟩ ⟨4, 0⟩).x * 0 +
      (barycentric (⟨1, 2⟩ : vec2 ℚ) ⟨0, 0⟩ ⟨0, 4⟩ ⟨4, 0⟩).y * 0 +
      (barycentric (⟨1, 2⟩ : vec2 ℚ) ⟨0, 0⟩ ⟨0, 4⟩ ⟨4, 0⟩).z * 4 = 1 ∧
    (barycentric (⟨1, 2⟩ : vec2 ℚ) ⟨0, 0⟩ ⟨0, 4⟩ ⟨4, 0⟩).x * 0 +
      (barycentric (⟨1, 2⟩ : vec2 ℚ) ⟨0, 0⟩ ⟨0, 4⟩ ⟨4, 0⟩).y * 4 +
      (barycentric (⟨1, 2⟩ : vec2 ℚ) ⟨0, 0⟩ ⟨0, 4⟩ ⟨4, 0⟩).z * 0 = 2 :=
  C5_barycentric_true_coordinates ⟨1, 2⟩ ⟨0, 0⟩ ⟨0, 4⟩ ⟨4, 0⟩ (by norm_num [E])

/-- C6: at every pixel that passes the three edge tests of a non-degenerate triangle with the
accepted winding, the three components of `barycentric` are non-negative, hence in `[0, 1]`. -/
theorem C6_weights_nonneg_at_covered_pixel (a b c : vertex K) (px py : Int)
    (hw : 0 < E a.position.xy b.position.xy c.position.xy)
    (hab : edge a.position.xy b.position.xy ⟨(px : K), (py : K)⟩ = true)
    (hbc : edge b.position.xy c.position.xy ⟨(px : K), (py : K)⟩ = true)
    (hca : edge c.position.xy a.position.xy ⟨(px : K), (py : K)⟩ = true) :
    (0 ≤ (barycentric ⟨(px : K), (py : K)⟩ a.position.xy b.position.xy c.position.xy).x ∧
      (barycentric ⟨(px : K), (py : K)⟩ a.position.xy b.position.xy c.position.xy).x ≤ 1) ∧
    (0 ≤ (barycentric ⟨(px : K), (py : K)⟩ a.position.xy b.position.xy c.position.xy).y ∧
      (barycentric ⟨(px : K), (py : K)⟩ a.position.xy b.position.xy c.position.xy).y ≤ 1) ∧
    (0 ≤ (barycentric ⟨(px : K), (py : K)⟩ a.position.xy b.position.xy c.position.xy).z ∧
      (barycentric ⟨(px : K), (py : K)⟩ a.position.xy b.position.xy c.position.xy).z ≤ 1) := by
  rw [edge_iff] at hab hbc hca
  have hne : E a.position.xy b.position.xy c.position.xy ≠ 0 := ne_of_gt hw
  have hs := barycentric_sum ⟨(px : K), (py : K)⟩ a.position.xy b.position.xy c.position.xy
  have hx : 0 ≤ (barycentric ⟨(px : K), (py : K)⟩ a.position.xy b.position.xy
      c.position.xy).x := by
    rw [barycentric_x _ _ _ _ hne]
    exact div_nonneg hbc hw.le
  have hy : 0 ≤ (barycentric ⟨(px : K), (py : K)⟩ a.position.xy b.position.xy
      c.position.xy).y := by
    rw [barycentric_y _ _ _ _ hne]
    exact div_nonneg hca hw.le
  have hz : 0 ≤ (barycentric ⟨(px : K), (py : K)⟩ a.position.xy b.position.xy
      c.position.xy).z := by
    rw [barycentric_z _ _ _ _ hne]
    exact div_nonneg hab hw.le
  refine ⟨⟨hx, ?_⟩, ⟨hy, ?_⟩, ⟨hz, ?_⟩⟩ <;> linarith

end claims_barycentric

end graphics

namespace graphics

open math

section claims_submit

variable {K : Type} [LinearOrderedField K] [FloorRing K]

/-- C6, witness: the pixel `(1, 2)` is covered by the triangle `(0, 0)`, `(0, 4)`, `(4, 0)`. -/
theorem C6_weights_nonneg_witness :
    (0 ≤ (barycentric ⟨((1 : Int) : ℚ), ((2 : Int) : ℚ)⟩ (scenario_vertex (0 : ℚ) 0).position.xy
        (scenario_vertex (0 : ℚ) 4).position.xy (scenario_vertex (4 : ℚ) 0).position.xy).x ∧
      (barycentric ⟨((1 : Int) : ℚ), ((2 : Int) : ℚ)⟩ (scenario_vertex (0 : ℚ) 0).position.xy
        (scenario_vertex (0 : ℚ) 4).position.xy (scenario_vertex (4 : ℚ) 0).position.xy).x ≤ 1) ∧
    (0 ≤ (barycentric ⟨((1 : Int) : ℚ), ((2 : Int) : ℚ)⟩ (scenario_vertex (0 : ℚ) 0).position.xy
        (scenario_vertex (0 : ℚ) 4).position.xy (scenario_vertex (4 : ℚ) 0).position.xy).y ∧
      (barycentric ⟨((1 : Int) : ℚ), ((2 : Int) : ℚ)⟩ (scenario_vertex (0 : ℚ) 0).position.xy
        (scenario_vertex (0 : ℚ) 4).position.xy (scenario_vertex (4 : ℚ) 0).position.xy).y ≤ 1) ∧
    (0 ≤ (barycentric ⟨((1 : Int) : ℚ), ((2 : Int) : ℚ)⟩ (scenario_vertex (0 : ℚ) 0).position.xy
        (scenario_vertex (0 : ℚ) 4).position.xy (scenario_vertex (4 : ℚ) 0).position.xy).z ∧
      (barycentric ⟨((1 : Int) : ℚ), ((2 : Int) : ℚ)⟩ (scenario_vertex (0 : ℚ) 0).position.xy
        (scenario_vertex (0 : ℚ) 4).position.xy (scenario_vertex (4 : ℚ) 0).position.xy).z ≤ 1) :=
  C6_weights_nonneg_at_covered_pixel (scenario_vertex 0 0) (scenario_vertex 0 4)
    (scenario_vertex 4 0) 1 2 (by norm_num [E, vec3.xy, scenario_vertex])
    (by norm_num [edge, vec3.xy, scenario_vertex])
    (by norm_num [edge, vec3.xy, scenario_vertex])
    (by norm_num [edge, vec3.xy, scenario_vertex])

theorem submit_single (sqrtf : K → K) (buffer : color_buffer) (view_matrix proj_matrix : mat4 K)
    (m : mesh K) (t : triangle K) :
    submit sqrtf buffer view_matrix proj_matrix [⟨m.transform, [t]⟩] =
      submit_triangle sqrtf (buffer.width : K) (buffer.height : K)
        (multiply view_matrix proj_matrix)
        ⟨view_matrix.r0.z, view_matrix.r1.z, view_matrix.r2.z⟩ buffer.clear m t := by
  simp only [submit, List.foldlM_cons, List.foldlM_nil, submit_triangle, submit_args]
  cases h : (if dot (transform_vector m.transform t.a.normal)
        ⟨view_matrix.r0.z, view_matrix.r1.z, view_matrix.r2.z⟩ > 0 ∨
      dot (transform_vector m.transform t.b.normal)
        ⟨view_matrix.r0.z, view_matrix.r1.z, view_matrix.r2.z⟩ > 0 ∨
      dot (transform_vector m.transform t.c.normal)
        ⟨view_matrix.r0.z, view_matrix.r1.z, view_matrix.r2.z⟩ > 0 then _ else _ :
        Option (vertex K × vertex K × vertex K × color)) <;> simp

end claims_submit

end graphics

namespace graphics

open math

section facing

variable {K : Type} [LinearOrderedField K]

theorem submit_args_isSome_iff (buffer_width buffer_height : K) (view_proj : mat4 K)
    (camera_forward : vec3 K) (m : mesh K) (t : triangle K) :
    (submit_args buffer_width buffer_height view_proj camera_forward m t).isSome = true ↔
      (0 < dot (transform_vector m.transform t.a.normal) camera_forward ∨
       0 < dot (transform_vector m.transform t.b.normal) camera_forward ∨
       0 < dot (transform_vector m.transform t.c.normal) camera_forward) := by
  unfold submit_args
  simp only [gt_iff_lt]
  split_ifs with h
  · simp only [Option.isSome_some, true_iff]
    exact h
  · simp only [Option.isSome_none, Bool.false_eq_true, false_iff]
    exact h

end facing

section claims_facing

variable {K : Type} [LinearOrderedField K] [FloorRing K]

/-- C7: in one iteration of the loops of `submit` the triangle is dispatched to
`rasterize_triangle` if and only if at least one of its three vertex normals, after
`transform_vector` by the mesh transform, has a strictly positive dot product with
`camera_forward = (view[0].z, view[1].z, view[2].z)`; a dispatched triangle is rasterized, a
triangle whose three dot products are all `≤ 0` leaves the buffer as it is, and `submit` on a
single triangle is that iteration on the cleared buffer. -/
theorem C7_facing_test (sqrtf : K → K) (buffer : color_buffer) (view_matrix proj_matrix : mat4 K)
    (m : mesh K) (t : triangle K) :
    ((submit_args (buffer.width : K) (buffer.height : K) (multiply view_matrix proj_matrix)
        ⟨view_matrix.r0.z, view_matrix.r1.z, view_matrix.r2.z⟩ m t).isSome = true ↔
      (0 < dot (transform_vector m.transform t.a.normal)
          ⟨view_matrix.r0.z, view_matrix.r1.z, view_matrix.r2.z⟩ ∨
       0 < dot (transform_vector m.transform t.b.normal)
          ⟨view_matrix.r0.z, view_matrix.r1.z, view_matrix.r2.z⟩ ∨
       0 < dot (transform_vector m.transform t.c.normal)
          ⟨view_matrix.r0.z, view_matrix.r1.z, view_matrix.r2.z⟩)) ∧
    (∀ (current : color_buffer) (args : vertex K × vertex K × vertex K × color),
      submit_args (buffer.width : K) (buffer.height : K) (multiply view_matrix proj_matrix)
        ⟨view_matrix.r0.z, view_matrix.r1.z, view_matrix.r2.z⟩ m t = some args →
      submit_triangle sqrtf (buffer.width : K) (buffer.height : K)
        (multiply view_matrix proj_matrix)
        ⟨view_matrix.r0.z, view_matrix.r1.z, view_matrix.r2.z⟩ current m t =
        rasterize_triangle sqrtf current args.1 args.2.1 args.2.2.1 args.2.2.2) ∧
    (∀ current : color_buffer,
      (dot (transform_vector m.transform t.a.normal)
          ⟨view_matrix.r0.z, view_matrix.r1.z, view_matrix.r2.z⟩ ≤ 0 ∧
       dot (transform_vector m.transform t.b.normal)
          ⟨view_matrix.r0.z, view_matrix.r1.z, view_matrix.r2.z⟩ ≤ 0 ∧
       dot (transform_vector m.transform t.c.normal)
          ⟨view_matrix.r0.z, view_matrix.r1.z, view_matrix.r2.z⟩ ≤ 0) →
      submit_triangle sqrtf (buffer.width : K) (buffer.height : K)
        (multiply view_matrix proj_matrix)
        ⟨view_matrix.r0.z, view_matrix.r1.z, view_matrix.r2.z⟩ current m t = some current) ∧
    submit sqrtf buffer view_matrix proj_matrix [⟨m.transform, [t]⟩] =
      submit_triangle sqrtf (buffer.width : K) (buffer.height : K)
        (multiply view_matrix proj_matrix)
        ⟨view_matrix.r0.z, view_matrix.r1.z, view_matrix.r2.z⟩ buffer.clear m t := by
  refine ⟨submit_args_isSome_iff _ _ _ _ m t, ?_, ?_, submit_single sqrtf buffer _ _ m t⟩
  · intro current args hargs
    rw [submit_triangle, hargs]
  · rintro current ⟨ha, hb, hc⟩
    have hnone : submit_args (buffer.width : K) (buffer.height : K)
        (multiply view_matrix proj_matrix)
        ⟨view_matrix.r0.z, view_matrix.r1.z, view_matrix.r2.z⟩ m t = none := by
      rw [← Option.not_isSome_iff_eq_none, submit_args_isSome_iff]
      rintro (h | h | h) <;> linarith
    rw [submit_triangle, hnone]

end claims_facing

end graphics

namespace graphics

open math

section shading

variable {K : Type} [LinearOrderedField K]

theorem n_dot_l_eq_spec_shade (sqrtf : K → K) (a b c : vertex K) (px py : Int) :
    n_dot_l (normalize sqrtf ⟨-1, 0, 1⟩) a b c px py = spec_shade sqrtf a b c px py := by
  unfold n_dot_l spec_shade
  simp only [dot, vec3.add, vec3.scale]
  congr 1
  ring

theorem spec_shade_nonneg (sqrtf : K → K) (a b c : vertex K) (px py : Int) :
    0 ≤ spec_shade sqrtf a b c px py := by
  unfold spec_shade
  exact le_max_right _ _

end shading

section claims_shading

variable {K : Type} [LinearOrderedField K] [FloorRing K]

theorem to_uint8_cast (x : K) : (to_uint8 x : Int) = to_int x % 256 := by
  unfold to_uint8
  exact Int.toNat_of_nonneg (Int.emod_nonneg _ (by norm_num))

theorem to_int_natCast (n : Nat) : to_int (n : K) = n := by
  have := to_int_intCast (K := K) (n : Int)
  simpa using this

/-- C8 (amended): at every pixel written by `rasterize_triangle` with base colour `col` the
colour has `a = 255` and each of `r`, `g`, `b` is the truncation of the same channel of `col`
times the shade `s` of the specification, reduced modulo 256 by the 8-bit conversion; the channel
is the truncation itself whenever the product is below 256. -/
theorem C8_shading_formula (sqrtf : K → K) (width height : Int) (a b c : vertex K) (col : color)
    (px py : Int) (k : color)
    (hmem : (px, py, k) ∈ rasterize_triangle_writes sqrtf width height a b c col) :
    ((k.r : Int) = to_int ((col.r : K) * spec_shade sqrtf a b c px py) % 256 ∧
     (k.g : Int) = to_int ((col.g : K) * spec_shade sqrtf a b c px py) % 256 ∧
     (k.b : Int) = to_int ((col.b : K) * spec_shade sqrtf a b c px py) % 256 ∧
     k.a = 255) ∧
    (((col.r : K) * spec_shade sqrtf a b c px py < 256 →
        (k.r : Int) = to_int ((col.r : K) * spec_shade sqrtf a b c px py)) ∧
     ((col.g : K) * spec_shade sqrtf a b c px py < 256 →
        (k.g : Int) = to_int ((col.g : K) * spec_shade sqrtf a b c px py)) ∧
     ((col.b : K) * spec_shade sqrtf a b c px py < 256 →
        (k.b : Int) = to_int ((col.b : K) * spec_shade sqrtf a b c px py))) := by
  rw [mem_writes] at hmem
  obtain ⟨_, _, _, rfl⟩ := hmem
  have hs := spec_shade_nonneg sqrtf a b c px py
  simp only [shaded_color, n_dot_l_eq_spec_shade]
  refine ⟨⟨?_, ?_, ?_, trivial⟩, ⟨?_, ?_, ?_⟩⟩
  · exact to_uint8_cast _
  · exact to_uint8_cast _
  · exact to_uint8_cast _
  · intro h
    exact to_uint8_eq (mul_nonneg (Nat.cast_nonneg _) hs) h
  · intro h
    exact to_uint8_eq (mul_nonneg (Nat.cast_nonneg _) hs) h
  · intro h
    exact to_uint8_eq (mul_nonneg (Nat.cast_nonneg _) hs) h

theorem to_int_real_zero : to_int (0 : ℝ) = 0 := by
  simpa using to_int_intCast (K := ℝ) 0

theorem to_int_real_four : to_int (4 : ℝ) = 4 := by
  simpa using to_int_intCast (K := ℝ) 4

theorem sqrt_two_le_two : Real.sqrt 2 ≤ 2 := by
  rw [Real.sqrt_le_iff]
  norm_num

theorem overbright_shade :
    (5 : ℝ) ≤ spec_shade Real.sqrt ⟨⟨0, 0, 0⟩, ⟨0, 0, 10⟩⟩ ⟨⟨0, 4, 0⟩, ⟨0, 0, 10⟩⟩
      ⟨⟨4, 0, 0⟩, ⟨0, 0, 10⟩⟩ 0 0 := by
  have h2 : (0 : ℝ) < Real.sqrt 2 := Real.sqrt_pos.mpr (by norm_num)
  have h3 := sqrt_two_le_two
  unfold spec_shade
  apply le_max_of_le_left
  simp only [barycentric, math.normalize, dot, dot2, vec2.sub, vec3.xy, vec3.div_scalar]
  norm_num
  have h4 : (Real.sqrt 2)⁻¹ * Real.sqrt 2 = 1 := inv_mul_cancel₀ h2.ne'
  have h5 := mul_le_mul_of_nonneg_left h3 (inv_nonneg.mpr h2.le)
  linarith

/-- C8, counterexample: on an 8x8 buffer the triangle `(0, 0)`, `(0, 4)`, `(4, 0)` with the
normal `(0, 0, 10)` at each vertex and base colour white writes the pixel `(0, 0)`; its red
channel is an 8-bit value, while the truncation of `255 * s` is at least 256. -/
theorem C8_counterexample :
    ∃ k : color,
      (0, 0, k) ∈ rasterize_triangle_writes Real.sqrt 8 8 ⟨⟨0, 0, 0⟩, ⟨0, 0, 10⟩⟩
        ⟨⟨0, 4, 0⟩, ⟨0, 0, 10⟩⟩ ⟨⟨4, 0, 0⟩, ⟨0, 0, 10⟩⟩ color.white ∧
      (k.r : Int) ≠ to_int ((color.white.r : ℝ) * spec_shade Real.sqrt ⟨⟨0, 0, 0⟩, ⟨0, 0, 10⟩⟩
        ⟨⟨0, 4, 0⟩, ⟨0, 0, 10⟩⟩ ⟨⟨4, 0, 0⟩, ⟨0, 0, 10⟩⟩ 0 0) := by
  refine ⟨_, (mem_writes Real.sqrt 8 8 _ _ _ color.white 0 0 _).mpr ⟨?_, ?_, ?_, rfl⟩, ?_⟩
  · simp only [to_int32, to_int_real_zero, to_int_real_four, minmax3]
    decide
  · simp only [to_int32, to_int_real_zero, to_int_real_four, minmax3]
    decide
  · rw [inside_iff]
    simp only [edge_iff, E, vec3.xy]
    norm_num
  · have h1 : (shaded_color (normalize Real.sqrt ⟨-1, 0, 1⟩) (color.white.b : ℝ)
        (color.white.g : ℝ) (color.white.r : ℝ) ⟨⟨0, 0, 0⟩, ⟨0, 0, 10⟩⟩
        ⟨⟨0, 4, 0⟩, ⟨0, 0, 10⟩⟩ ⟨⟨4, 0, 0⟩, ⟨0, 0, 10⟩⟩ 0 0).r < 256 := to_uint8_lt _
    have h2 : (256 : ℝ) ≤ (color.white.r : ℝ) * spec_shade Real.sqrt ⟨⟨0, 0, 0⟩, ⟨0, 0, 10⟩⟩
        ⟨⟨0, 4, 0⟩, ⟨0, 0, 10⟩⟩ ⟨⟨4, 0, 0⟩, ⟨0, 0, 10⟩⟩ 0 0 := by
      have := overbright_shade
      simp only [color.white]
      push_cast
      linarith
    have h3 := to_int_mono h2
    rw [show (256 : ℝ) = ((256 : Nat) : ℝ) by norm_num, to_int_natCast] at h3
    omega

end claims_shading

end graphics

namespace graphics

open math

section uniform

variable {K : Type} [LinearOrderedField K]

end uniform

section claims_uniform

variable {K : Type} [LinearOrderedField K] [FloorRing K]

theorem overbright_mem :
    (0, 0, shaded_color (math.normalize Real.sqrt ⟨-1, 0, 1⟩) (color.white.b : ℝ)
        (color.white.g : ℝ) (color.white.r : ℝ) ⟨⟨0, 0, 0⟩, ⟨0, 0, 10⟩⟩
        ⟨⟨0, 4, 0⟩, ⟨0, 0, 10⟩⟩ ⟨⟨4, 0, 0⟩, ⟨0, 0, 10⟩⟩ 0 0) ∈
      rasterize_triangle_writes Real.sqrt 8 8 ⟨⟨0, 0, 0⟩, ⟨0, 0, 10⟩⟩
        ⟨⟨0, 4, 0⟩, ⟨0, 0, 10⟩⟩ ⟨⟨4, 0, 0⟩, ⟨0, 0, 10⟩⟩ color.white := by
  refine (mem_writes Real.sqrt 8 8 _ _ _ color.white 0 0 _).mpr ⟨?_, ?_, ?_, rfl⟩
  · simp only [to_int32, to_int_real_zero, to_int_real_four, minmax3]
    decide
  · simp only [to_int32, to_int_real_zero, to_int_real_four, minmax3]
    decide
  · rw [inside_iff]
    simp only [edge_iff, E, vec3.xy]
    norm_num

/-- C8, witness: the pixel `(0, 0)` written for the triangle `(0, 0)`, `(0, 4)`, `(4, 0)` with
the normal `(0, 0, 10)` at each vertex and base colour white. -/
theorem C8_shading_witness :
    ∃ k : color,
      (0, 0, k) ∈ rasterize_triangle_writes Real.sqrt 8 8 ⟨⟨0, 0, 0⟩, ⟨0, 0, 10⟩⟩
        ⟨⟨0, 4, 0⟩, ⟨0, 0, 10⟩⟩ ⟨⟨4, 0, 0⟩, ⟨0, 0, 10⟩⟩ color.white ∧
      (k.r : Int) = to_int ((color.white.r : ℝ) * spec_shade Real.sqrt ⟨⟨0, 0, 0⟩, ⟨0, 0, 10⟩⟩
        ⟨⟨0, 4, 0⟩, ⟨0, 0, 10⟩⟩ ⟨⟨4, 0, 0⟩, ⟨0, 0, 10⟩⟩ 0 0) % 256 ∧
      k.a = 255 :=
  ⟨_, overbright_mem,
    (C8_shading_formula Real.sqrt 8 8 _ _ _ color.white 0 0 _ overbright_mem).1.1,
    (C8_shading_formula Real.sqrt 8 8 _ _ _ color.white 0 0 _ overbright_mem).1.2.2.2⟩

theorem to_uint8_zero : to_uint8 (0 : K) = 0 := by
  unfold to_uint8
  rw [show to_int (0 : K) = 0 by simpa using to_int_intCast (K := K) 0]
  rfl

end claims_uniform

end graphics

namespace graphics

open math

section scenario

variable {K : Type} [LinearOrderedField K]

theorem length_filterMap_ite {α : Type} (P : Int → Bool) (f : Int → α) (xs : List Int) :
    (xs.filterMap (fun px => if P px = true then some (f px) else none)).length =
      (xs.filter P).length := by
  induction xs with
  | nil => rfl
  | cons x xs ih =>
    by_cases h : P x = true
    · simp [List.filterMap_cons, List.filter_cons, h, ih]
    · simp [List.filterMap_cons, List.filter_cons, h, ih]

theorem scenario_inside (px py : Int) :
    inside (scenario_vertex (10 : K) 10) (scenario_vertex 10 50) (scenario_vertex 50 10) px py =
      decide (10 ≤ px ∧ 10 ≤ py ∧ px + py ≤ 60) := by
  rw [Bool.eq_iff_iff, inside_iff]
  simp only [edge_iff, E, vec3.xy, scenario_vertex, decide_eq_true_eq]
  have e1 : ((px : K) - 10) * (50 - 10) - ((py : K) - 10) * (10 - 10) = 40 * ((px : K) - 10) := by
    ring
  have e2 : ((px : K) - 10) * (10 - 50) - ((py : K) - 50) * (50 - 10) =
      40 * (60 - ((px : K) + (py : K))) := by
    ring
  have e3 : ((px : K) - 50) * (10 - 10) - ((py : K) - 10) * (10 - 50) = 40 * ((py : K) - 10) := by
    ring
  rw [e1, e2, e3]
  have h40 : (0 : K) < 40 := by norm_num
  rw [mul_nonneg_iff_of_pos_left h40, mul_nonneg_iff_of_pos_left h40,
    mul_nonneg_iff_of_pos_left h40, sub_nonneg, sub_nonneg, sub_nonneg]
  have c1 : (10 : K) ≤ (px : K) ↔ 10 ≤ px := by exact_mod_cast Iff.rfl
  have c2 : (10 : K) ≤ (py : K) ↔ 10 ≤ py := by exact_mod_cast Iff.rfl
  have c3 : (px : K) + (py : K) ≤ 60 ↔ px + py ≤ 60 := by exact_mod_cast Iff.rfl
  rw [c1, c2, c3]
  tauto

end scenario

section claims_scenario

variable {K : Type} [LinearOrderedField K] [FloorRing K]

theorem to_int_ten : to_int (10 : K) = 10 := by
  simpa using to_int_intCast (K := K) 10

theorem to_int_fifty : to_int (50 : K) = 50 := by
  simpa using to_int_intCast (K := K) 50

/-- C10 (amended): on a 64x64 buffer the triangle of the scenario in the listed order
`(10, 10)`, `(50, 10)`, `(10, 50)` has the opposite winding and covers no pixel; with the last
two vertices exchanged it covers exactly 861 pixels, the integer points of the closed
triangle. -/
theorem C10_scenario_pixel_count (sqrtf : K → K) :
    (rasterize_triangle_writes sqrtf 64 64 (scenario_vertex 10 10) (scenario_vertex 50 10)
      (scenario_vertex 10 50) color.white).length = 0 ∧
    (rasterize_triangle_writes sqrtf 64 64 (scenario_vertex 10 10) (scenario_vertex 10 50)
      (scenario_vertex 50 10) color.white).length = 861 := by
  constructor
  · rw [writes_nil_of_opposite_winding sqrtf 64 64 _ _ _ color.white
      (by norm_num [E, vec3.xy, scenario_vertex])]
    rfl
  · unfold rasterize_triangle_writes
    simp only [List.length_flatMap, Function.comp_def, length_filterMap_ite, scenario_inside]
    simp only [scenario_vertex, to_int32, to_int_ten, to_int_fifty, minmax3]
    rfl

/-- C10, counterexample: in the listed order the triangle of the scenario covers no pixel of
the 64x64 buffer, so the count is not between 800 and 861. -/
theorem C10_counterexample :
    ¬ (800 ≤ (rasterize_triangle_writes Real.sqrt 64 64 (scenario_vertex 10 10)
          (scenario_vertex 50 10) (scenario_vertex 10 50) color.white).length ∧
       (rasterize_triangle_writes Real.sqrt 64 64 (scenario_vertex 10 10)
          (scenario_vertex 50 10) (scenario_vertex 10 50) color.white).length ≤ 861) := by
  rw [writes_nil_of_opposite_winding Real.sqrt 64 64 _ _ _ color.white
    (by norm_num [E, vec3.xy, scenario_vertex])]
  simp

end claims_scenario

end graphics

namespace graphics

open math

section buffer_laws

/-! ## The colour buffer -/

theorem index_inj (w x y x' y' : Int) (hx : 0 ≤ x ∧ x < w) (hx' : 0 ≤ x' ∧ x' < w)
    (h : w * y + x = w * y' + x') : x = x' ∧ y = y' := by
  have hw : 0 ≤ w := by omega
  have hy : y = y' := by
    rcases lt_trichotomy y y' with hlt | heq | hgt
    · have h1 : w * 1 ≤ w * (y' - y) := mul_le_mul_of_nonneg_left (by omega) hw
      have h2 : w * (y' - y) = w * y' - w * y := by ring
      omega
    · exact heq
    · have h1 : w * 1 ≤ w * (y - y') := mul_le_mul_of_nonneg_left (by omega) hw
      have h2 : w * (y - y') = w * y - w * y' := by ring
      omega
  subst hy
  exact ⟨by omega, rfl⟩

theorem index_in_range (w h x y : Int) (hx : 0 ≤ x ∧ x < w) (hy : 0 ≤ y ∧ y < h) :
    0 ≤ w * y + x ∧ w * y + x < w * h := by
  have hw0 : 0 ≤ w := by omega
  have m1 : 0 ≤ w * y := mul_nonneg hw0 hy.1
  have m2 : w * y ≤ w * (h - 1) := mul_le_mul_of_nonneg_left (by omega) hw0
  have m3 : w * (h - 1) = w * h - w := by ring
  constructor <;> omega

theorem set_eq_some (buffer : color_buffer) (x y : Int) (c : color)
    (hi : 0 ≤ buffer._width * y + x ∧ buffer._width * y + x < buffer._data.length) :
    buffer.set x y c =
      some { buffer with _data := buffer._data.set (buffer._width * y + x).toNat c } := by
  unfold color_buffer.set
  simp only [hi, and_self, if_true]

theorem set_preserves (buffer b' : color_buffer) (x y : Int) (c : color)
    (h : buffer.set x y c = some b') :
    b'._width = buffer._width ∧ b'._height = buffer._height ∧
      b'._data.length = buffer._data.length := by
  unfold color_buffer.set at h
  simp only at h
  split_ifs at h with hi
  simp only [Option.some.injEq] at h
  subst h
  simp

theorem get_set_index (buffer : color_buffer) (x y x' y' : Int) (c : color)
    (hi : 0 ≤ buffer._width * y + x ∧ buffer._width * y + x < buffer._data.length)
    (hj : 0 ≤ buffer._width * y' + x' ∧ buffer._width * y' + x' < buffer._data.length) :
    color_buffer.get
        { buffer with _data := buffer._data.set (buffer._width * y + x).toNat c } x' y' =
      if buffer._width * y' + x' = buffer._width * y + x then some c else buffer.get x' y' := by
  unfold color_buffer.get
  simp only [List.length_set, hj, and_self, if_true, List.get?_eq_getElem?, List.getElem?_set]
  by_cases h : buffer._width * y' + x' = buffer._width * y + x
  · have h1 : (buffer._width * y + x).toNat = (buffer._width * y' + x').toNat := by rw [h]
    have h2 : (buffer._width * y + x).toNat < buffer._data.length := by omega
    simp only [h1, h, if_true]
    rw [if_pos (by omega)]
  · have h1 : (buffer._width * y + x).toNat ≠ (buffer._width * y' + x').toNat := by omega
    simp only [h1, h, if_false]

theorem clear_data (buffer : color_buffer)
    (hd : (buffer._data.length : Int) = buffer.width * buffer.height) :
    buffer.clear._data = List.replicate buffer._data.length ⟨255, 255, 255, 255⟩ := by
  have hn : (buffer._width * buffer._height).toNat = buffer._data.length := by
    simp only [color_buffer.width, color_buffer.height] at hd
    omega
  simp only [color_buffer.clear, hn, min_self, List.drop_length, List.append_nil]

theorem clear_get (buffer : color_buffer)
    (hd : (buffer._data.length : Int) = buffer.width * buffer.height) (x y : Int)
    (hx : 0 ≤ x ∧ x < buffer.width) (hy : 0 ≤ y ∧ y < buffer.height) :
    buffer.clear.get x y = some color.white := by
  have hi := index_in_range buffer.width buffer.height x y hx hy
  rw [← hd] at hi
  simp only [color_buffer.width] at hi
  have hw : buffer.clear._width = buffer._width := rfl
  unfold color_buffer.get
  rw [clear_data buffer hd, hw]
  simp only [List.length_replicate, hi, and_self, if_true, List.get?_eq_getElem?]
  rw [List.getElem?_replicate]
  rw [if_pos (by omega)]
  rfl

/-- C11: on a buffer with width and height at least 1 (holding the `width * height` pixels its
constructor allocates), whatever the prior contents, after `clear` every pixel `(x, y)` with
`0 ≤ x < width` and `0 ≤ y < height` reads as opaque white `(255, 255, 255, 255)`, which is
`color::white`, and the width and the height are unchanged. -/
theorem C11_clear_sets_background (buffer : color_buffer) (x y : Int)
    (hw : 1 ≤ buffer.width) (hh : 1 ≤ buffer.height)
    (hd : (buffer._data.length : Int) = buffer.width * buffer.height)
    (hx : 0 ≤ x ∧ x < buffer.width) (hy : 0 ≤ y ∧ y < buffer.height) :
    buffer.clear.get x y = some ⟨255, 255, 255, 255⟩ ∧
    buffer.clear.get x y = some color.white ∧
    buffer.clear.width = buffer.width ∧ buffer.clear.height = buffer.height := by
  have hpos : 0 < buffer.width * buffer.height := mul_pos (by omega) (by omega)
  exact ⟨clear_get buffer hd x y hx hy, clear_get buffer hd x y hx hy, rfl, rfl⟩

/-- C11, witness: a 2x2 buffer holding four different colours; after `clear` the pixel `(1, 1)`
is white. -/
theorem C11_clear_witness :
    (color_buffer.clear ⟨2, 2, [color.red, color.green, color.blue, color.black]⟩).get 1 1 =
        some ⟨255, 255, 255, 255⟩ ∧
    (color_buffer.clear ⟨2, 2, [color.red, color.green, color.blue, color.black]⟩).get 1 1 =
        some color.white ∧
    (color_buffer.clear ⟨2, 2, [color.red, color.green, color.blue, color.black]⟩).width =
        (⟨2, 2, [color.red, color.green, color.blue, color.black]⟩ : color_buffer).width ∧
    (color_buffer.clear ⟨2, 2, [color.red, color.green, color.blue, color.black]⟩).height =
        (⟨2, 2, [color.red, color.green, color.blue, color.black]⟩ : color_buffer).height :=
  C11_clear_sets_background ⟨2, 2, [color.red, color.green, color.blue, color.black]⟩ 1 1
    (by decide) (by decide) (by decide) (by decide) (by decide)

end buffer_laws

end graphics

namespace graphics

open math

section buffer_claims

theorem get_isSome (buffer : color_buffer) (x y : Int)
    (hi : 0 ≤ buffer._width * y + x ∧ buffer._width * y + x < buffer._data.length) :
    ∃ k : color, buffer.get x y = some k := by
  unfold color_buffer.get
  simp only [hi, and_self, if_true, List.get?_eq_getElem?]
  have h : (buffer._width * y + x).toNat < buffer._data.length := by omega
  exact ⟨buffer._data[(buffer._width * y + x).toNat], List.getElem?_eq_getElem h⟩

/-- C13 (amended): `set` and `get` check no coordinate: they access the pixel vector at the
index `width * y + x`.  Whenever that index lies inside the vector, also for coordinates outside
`[0, width) x [0, height)`, `set (x, y, c)` succeeds and afterwards `get (x', y')` returns `c`
exactly at the coordinates of the same index and the former value elsewhere; so `set (width, 0, c)`
on a buffer with at least two rows makes `get (0, 1)` return `c`. -/
theorem C13_set_get_index_only (buffer : color_buffer) (x y : Int) (c : color)
    (hi : 0 ≤ buffer.width * y + x ∧ buffer.width * y + x < buffer._data.length) :
    ∃ b' : color_buffer, buffer.set x y c = some b' ∧
      b'.width = buffer.width ∧ b'.height = buffer.height ∧
      (∀ x' y' : Int,
        (0 ≤ buffer.width * y' + x' ∧ buffer.width * y' + x' < buffer._data.length) →
        b'.get x' y' =
          if buffer.width * y' + x' = buffer.width * y + x then some c else buffer.get x' y') ∧
      ((x = buffer.width ∧ y = 0) → b'.get 0 1 = some c) := by
  simp only [color_buffer.width] at hi
  refine ⟨_, set_eq_some buffer x y c hi, rfl, rfl, ?_, ?_⟩
  · intro x' y' hj
    exact get_set_index buffer x y x' y' c hi hj
  · rintro ⟨rfl, rfl⟩
    have hj : 0 ≤ buffer._width * 1 + 0 ∧ buffer._width * 1 + 0 < (buffer._data.length : Int) := by
      simp only [color_buffer.width] at hi ⊢
      omega
    rw [get_set_index buffer _ _ 0 1 c hi hj, if_pos]
    simp only [color_buffer.width]
    ring

/-- C13, witness: `set (2, 0, white)` on a freshly constructed 2x2 buffer. -/
theorem C13_set_get_witness :
    ∃ b' : color_buffer, (color_buffer.create 2 2).set 2 0 color.white = some b' ∧
      b'.width = (color_buffer.create 2 2).width ∧ b'.height = (color_buffer.create 2 2).height ∧
      (∀ x' y' : Int,
        (0 ≤ (color_buffer.create 2 2).width * y' + x' ∧
          (color_buffer.create 2 2).width * y' + x' < (color_buffer.create 2 2)._data.length) →
        b'.get x' y' =
          if (color_buffer.create 2 2).width * y' + x' = (color_buffer.create 2 2).width * 0 + 2
          then some color.white else (color_buffer.create 2 2).get x' y') ∧
      (((2 : Int) = (color_buffer.create 2 2).width ∧ (0 : Int) = 0) →
        b'.get 0 1 = some color.white) :=
  C13_set_get_index_only (color_buffer.create 2 2) 2 0 color.white (by decide)

/-- C13, counterexample: on a freshly constructed 2x2 buffer the call `set (2, 0, white)`, whose
`x` is outside `[0, 2)`, changes the pixel `(0, 1)`, and `get (2, 0)` then returns the value of
the in-range pixel `(0, 1)`. -/
theorem C13_counterexample :
    ∃ b' : color_buffer, (color_buffer.create 2 2).set 2 0 color.white = some b' ∧
      (color_buffer.create 2 2).get 0 1 = some ⟨0, 0, 0, 0⟩ ∧
      b'.get 0 1 = some color.white ∧
      b'.get 2 0 = b'.get 0 1 := by
  refine ⟨⟨2, 2, [⟨0, 0, 0, 0⟩, ⟨0, 0, 0, 0⟩, color.white, ⟨0, 0, 0, 0⟩]⟩, ?_, ?_, ?_, ?_⟩ <;>
    decide

/-- C14: on a buffer holding `width * height` pixels and for in-range coordinates `(x, y)` and
`(x', y')`, `set (x, y, c)` succeeds and afterwards `get (x', y')` returns `c` when
`(x', y') = (x, y)` and its previous value otherwise; the index `y * width + x` is injective on
in-range coordinates. -/
theorem C14_row_major_set_get (buffer : color_buffer) (x y x' y' : Int) (c : color)
    (hd : (buffer._data.length : Int) = buffer.width * buffer.height)
    (hx : 0 ≤ x ∧ x < buffer.width) (hy : 0 ≤ y ∧ y < buffer.height)
    (hx' : 0 ≤ x' ∧ x' < buffer.width) (hy' : 0 ≤ y' ∧ y' < buffer.height) :
    (∃ (b' : color_buffer) (previous : color),
      buffer.set x y c = some b' ∧ buffer.get x' y' = some previous ∧
      b'.get x' y' = if x' = x ∧ y' = y then some c else some previous) ∧
    (y' * buffer.width + x' = y * buffer.width + x → x' = x ∧ y' = y) := by
  have hi := index_in_range buffer.width buffer.height x y hx hy
  have hj := index_in_range buffer.width buffer.height x' y' hx' hy'
  rw [← hd] at hi hj
  have hinj : buffer.width * y' + x' = buffer.width * y + x → x' = x ∧ y' = y :=
    fun h => index_inj buffer.width x' y' x y hx' hx h
  simp only [color_buffer.width] at hi hj hinj
  obtain ⟨previous, hprev⟩ := get_isSome buffer x' y' hj
  refine ⟨⟨_, previous, set_eq_some buffer x y c hi, hprev, ?_⟩, ?_⟩
  · rw [get_set_index buffer x y x' y' c hi hj, hprev]
    by_cases h : x' = x ∧ y' = y
    · obtain ⟨rfl, rfl⟩ := h
      simp
    · have h' : ¬ (buffer._width * y' + x' = buffer._width * y + x) := fun e => h (hinj e)
      rw [if_neg h', if_neg h]
  · intro h
    apply hinj
    simp only [color_buffer.width] at h
    linarith [mul_comm y' buffer._width, mul_comm y buffer._width]

/-- C14, witness: on a freshly constructed 3x2 buffer, after `set (2, 0, red)` the pixel
`(0, 1)` keeps its value. -/
theorem C14_row_major_witness :
    (∃ (b' : color_buffer) (previous : color),
      (color_buffer.create 3 2).set 2 0 color.red = some b' ∧
      (color_buffer.create 3 2).get 0 1 = some previous ∧
      b'.get 0 1 = if (0 : Int) = 2 ∧ (1 : Int) = 0 then some color.red else some previous) ∧
    ((1 : Int) * (color_buffer.create 3 2).width + 0 = 0 * (color_buffer.create 3 2).width + 2 →
      (0 : Int) = 2 ∧ (1 : Int) = 0) :=
  C14_row_major_set_get (color_buffer.create 3 2) 2 0 0 1 color.red (by decide) (by decide)
    (by decide) (by decide) (by decide)

end buffer_claims

end graphics

namespace graphics

open math

section submit_structure

variable {K : Type} [LinearOrderedField K] [FloorRing K]

/-! ## The structure of `submit` -/

theorem apply_writes_preserves (ws : List (Int × Int × color)) (buffer b' : color_buffer)
    (h : apply_writes buffer ws = some b') :
    b'._width = buffer._width ∧ b'._height = buffer._height ∧
      b'._data.length = buffer._data.length := by
  induction ws generalizing buffer with
  | nil =>
    simp only [apply_writes, List.foldlM_nil, Option.pure_def, Option.some.injEq] at h
    subst h
    exact ⟨rfl, rfl, rfl⟩
  | cons w ws ih =>
    simp only [apply_writes, List.foldlM_cons, Option.bind_eq_bind] at h
    cases hs : buffer.set w.1 w.2.1 w.2.2 with
    | none => rw [hs] at h; exact absurd h (by simp)
    | some b1 =>
      rw [hs, Option.some_bind] at h
      obtain ⟨h1, h2, h3⟩ := set_preserves buffer b1 _ _ _ hs
      obtain ⟨k1, k2, k3⟩ := ih b1 h
      exact ⟨k1.trans h1, k2.trans h2, k3.trans h3⟩

theorem triangles_loop_eq (sqrtf : K → K) (bw bh : K) (view_proj : mat4 K)
    (camera_forward : vec3 K) (width height : Int) (m : mesh K) (ts : List (triangle K))
    (buffer : color_buffer) (hW : buffer.width = width) (hH : buffer.height = height) :
    ts.foldlM (fun buffer t =>
        submit_triangle sqrtf bw bh view_proj camera_forward buffer m t) buffer =
      apply_writes buffer
        ((ts.filterMap (fun t => submit_args bw bh view_proj camera_forward m t)).flatMap
          (fun call => rasterize_triangle_writes sqrtf width height call.1 call.2.1 call.2.2.1
            call.2.2.2)) := by
  induction ts generalizing buffer with
  | nil => rfl
  | cons t ts ih =>
    rw [List.foldlM_cons, List.filterMap_cons]
    cases hargs : submit_args bw bh view_proj camera_forward m t with
    | none =>
      simp only [submit_triangle, hargs, Option.bind_eq_bind, Option.some_bind]
      exact ih buffer hW hH
    | some call =>
      obtain ⟨a_ss, b_ss, c_ss, col⟩ := call
      simp only [submit_triangle, hargs, List.flatMap_cons, Option.bind_eq_bind]
      rw [apply_writes_append, rasterize_triangle_eq_apply_writes, hW, hH]
      cases hb : apply_writes buffer
          (rasterize_triangle_writes sqrtf width height a_ss b_ss c_ss col) with
      | none => rfl
      | some b1 =>
        simp only [Option.some_bind]
        obtain ⟨h1, h2, _⟩ := apply_writes_preserves _ buffer b1 hb
        exact ih b1 (by simpa [color_buffer.width] using h1.trans hW)
          (by simpa [color_buffer.height] using h2.trans hH)

theorem meshes_loop_eq (sqrtf : K → K) (bw bh : K) (view_proj : mat4 K)
    (camera_forward : vec3 K) (width height : Int) (ms : List (mesh K))
    (buffer : color_buffer) (hW : buffer.width = width) (hH : buffer.height = height) :
    ms.foldlM (fun buffer m =>
        m.triangles.foldlM (fun buffer t =>
          submit_triangle sqrtf bw bh view_proj camera_forward buffer m t) buffer) buffer =
      apply_writes buffer
        ((ms.flatMap (fun m => m.triangles.filterMap (fun t =>
            submit_args bw bh view_proj camera_forward m t))).flatMap
          (fun call => rasterize_triangle_writes sqrtf width height call.1 call.2.1 call.2.2.1
            call.2.2.2)) := by
  induction ms generalizing buffer with
  | nil => rfl
  | cons m ms ih =>
    rw [List.foldlM_cons, List.flatMap_cons, List.flatMap_append, apply_writes_append,
      triangles_loop_eq sqrtf bw bh view_proj camera_forward width height m m.triangles buffer
        hW hH]
    cases hb : apply_writes buffer
        ((m.triangles.filterMap (fun t =>
          submit_args bw bh view_proj camera_forward m t)).flatMap
          (fun call => rasterize_triangle_writes sqrtf width height call.1 call.2.1 call.2.2.1
            call.2.2.2)) with
    | none => rfl
    | some b1 =>
      simp only [Option.some_bind, Option.bind_eq_bind]
      obtain ⟨h1, h2, _⟩ := apply_writes_preserves _ buffer b1 hb
      exact ih b1 (by simpa [color_buffer.width] using h1.trans hW)
        (by simpa [color_buffer.height] using h2.trans hH)

theorem submit_eq_apply_writes (sqrtf : K → K) (buffer : color_buffer)
    (view_matrix proj_matrix : mat4 K) (meshes : List (mesh K)) :
    submit sqrtf buffer view_matrix proj_matrix meshes =
      apply_writes buffer.clear (submit_writes sqrtf buffer view_matrix proj_matrix meshes) := by
  unfold submit submit_writes submit_calls
  exact meshes_loop_eq sqrtf _ _ _ _ buffer.width buffer.height meshes buffer.clear rfl rfl

end submit_structure

section submit_calls_mem

variable {K : Type} [LinearOrderedField K]

theorem mem_submit_calls (buffer : color_buffer) (view_matrix proj_matrix : mat4 K)
    (meshes : List (mesh K)) (call : vertex K × vertex K × vertex K × color) :
    call ∈ submit_calls buffer view_matrix proj_matrix meshes ↔
      ∃ m ∈ meshes, ∃ t ∈ m.triangles,
        submit_args (buffer.width : K) (buffer.height : K) (multiply view_matrix proj_matrix)
          ⟨view_matrix.r0.z, view_matrix.r1.z, view_matrix.r2.z⟩ m t = some call := by
  unfold submit_calls
  simp only [List.mem_flatMap, List.mem_filterMap]

end submit_calls_mem

end graphics

namespace graphics

open math

section last_write

/-! ## The last write to a pixel wins -/

theorem foldl_no_write (x y : Int) (ws : List (Int × Int × color)) (init : Option color)
    (h : ∀ w ∈ ws, ¬ (w.1 = x ∧ w.2.1 = y)) :
    ws.foldl (fun cur w => if w.1 = x ∧ w.2.1 = y then some w.2.2 else cur) init = init := by
  induction ws generalizing init with
  | nil => rfl
  | cons w ws ih =>
    rw [List.foldl_cons, if_neg (h w (List.mem_cons_self _ _))]
    exact ih init (fun w' hw' => h w' (List.mem_cons_of_mem _ hw'))

theorem foldl_same_write (x y : Int) (k : color) (ws : List (Int × Int × color))
    (init : Option color)
    (hk : ∀ w ∈ ws, (w.1 = x ∧ w.2.1 = y) → w.2.2 = k)
    (hex : init = some k ∨ ∃ w ∈ ws, w.1 = x ∧ w.2.1 = y) :
    ws.foldl (fun cur w => if w.1 = x ∧ w.2.1 = y then some w.2.2 else cur) init = some k := by
  induction ws generalizing init with
  | nil =>
    rcases hex with h | ⟨w, hw, _⟩
    · exact h
    · exact absurd hw (List.not_mem_nil _)
  | cons w ws ih =>
    rw [List.foldl_cons]
    have hk' : ∀ w' ∈ ws, (w'.1 = x ∧ w'.2.1 = y) → w'.2.2 = k :=
      fun w' hw' => hk w' (List.mem_cons_of_mem _ hw')
    by_cases hat : w.1 = x ∧ w.2.1 = y
    · rw [if_pos hat]
      exact ih _ hk' (Or.inl (by rw [hk w (List.mem_cons_self _ _) hat]))
    · rw [if_neg hat]
      refine ih _ hk' ?_
      rcases hex with h | ⟨w', hw', hat'⟩
      · exact Or.inl h
      · rcases List.mem_cons.mp hw' with rfl | hmem
        · exact absurd hat' hat
        · exact Or.inr ⟨w', hmem, hat'⟩

theorem get_apply_writes (ws : List (Int × Int × color)) (buffer out : color_buffer)
    (x y : Int)
    (hd : (buffer._data.length : Int) = buffer.width * buffer.height)
    (hx : 0 ≤ x ∧ x < buffer.width) (hy : 0 ≤ y ∧ y < buffer.height)
    (hr : ∀ w ∈ ws, (0 ≤ w.1 ∧ w.1 < buffer.width) ∧ (0 ≤ w.2.1 ∧ w.2.1 < buffer.height))
    (h : apply_writes buffer ws = some out) :
    out.get x y =
      ws.foldl (fun cur w => if w.1 = x ∧ w.2.1 = y then some w.2.2 else cur)
        (buffer.get x y) := by
  induction ws generalizing buffer with
  | nil =>
    simp only [apply_writes, List.foldlM_nil, Option.pure_def, Option.some.injEq] at h
    subst h
    rfl
  | cons w ws ih =>
    have hwr := hr w (List.mem_cons_self _ _)
    have hi := index_in_range buffer.width buffer.height w.1 w.2.1 hwr.1 hwr.2
    have hj := index_in_range buffer.width buffer.height x y hx hy
    rw [← hd] at hi hj
    simp only [color_buffer.width] at hi hj
    simp only [apply_writes, List.foldlM_cons, Option.bind_eq_bind,
      set_eq_some buffer w.1 w.2.1 w.2.2 hi, Option.some_bind] at h
    rw [List.foldl_cons]
    have hget := get_set_index buffer w.1 w.2.1 x y w.2.2 hi hj
    have hcond : (buffer._width * y + x = buffer._width * w.2.1 + w.1) ↔
        (w.1 = x ∧ w.2.1 = y) := by
      constructor
      · intro e
        have := index_inj buffer.width x y w.1 w.2.1 hx hwr.1 e
        exact ⟨this.1.symm, this.2.symm⟩
      · rintro ⟨e1, e2⟩
        rw [e1, e2]
    have hih := ih
      { buffer with _data := buffer._data.set (buffer._width * w.2.1 + w.1).toNat w.2.2 }
      (by simpa [color_buffer.width, color_buffer.height] using hd) hx hy
      (fun w' hw' => hr w' (List.mem_cons_of_mem _ hw')) h
    rw [hih, hget]
    simp only [hcond]

end last_write

end graphics

namespace graphics

open math

section claims_draw_order

variable {K : Type} [LinearOrderedField K] [FloorRing K]

theorem submit_writes_in_range (sqrtf : K → K) (buffer : color_buffer)
    (view_matrix proj_matrix : mat4 K) (meshes : List (mesh K)) :
    ∀ w ∈ submit_writes sqrtf buffer view_matrix proj_matrix meshes,
      (0 ≤ w.1 ∧ w.1 < buffer.width) ∧ (0 ≤ w.2.1 ∧ w.2.1 < buffer.height) := by
  rintro ⟨px, py, k⟩ hmem
  unfold submit_writes at hmem
  rw [List.mem_flatMap] at hmem
  obtain ⟨call, _, hw⟩ := hmem
  have := writes_in_bounds sqrtf _ _ _ _ _ _ px py k hw
  show (0 ≤ px ∧ px < buffer.width) ∧ (0 ≤ py ∧ py < buffer.height)
  exact ⟨⟨this.1, by omega⟩, ⟨this.2.2.1, by omega⟩⟩

theorem clear_invariant (buffer : color_buffer)
    (hd : (buffer._data.length : Int) = buffer.width * buffer.height) :
    (buffer.clear._data.length : Int) = buffer.clear.width * buffer.clear.height := by
  rw [clear_data buffer hd, List.length_replicate]
  exact hd

theorem submit_some (sqrtf : K → K) (buffer : color_buffer)
    (view_matrix proj_matrix : mat4 K) (meshes : List (mesh K))
    (hd : (buffer._data.length : Int) = buffer.width * buffer.height) :
    ∃ out : color_buffer, submit sqrtf buffer view_matrix proj_matrix meshes = some out ∧
      out._width = buffer._width ∧ out._height = buffer._height ∧
      out._data.length = buffer._data.length := by
  rw [submit_eq_apply_writes]
  have hc := clear_invariant buffer hd
  obtain ⟨out, h, h1, h2, h3⟩ := apply_writes_in_range
    (submit_writes sqrtf buffer view_matrix proj_matrix meshes) buffer.clear
    (by
      intro w hw
      have hr := submit_writes_in_range sqrtf buffer view_matrix proj_matrix meshes w hw
      have := index_in_range buffer.clear.width buffer.clear.height w.1 w.2.1 hr.1 hr.2
      rw [← hc] at this
      exact this)
  refine ⟨out, h, h1, h2, ?_⟩
  rw [h3, clear_data buffer hd, List.length_replicate]

/-- C12: `submit` returns a buffer of the same size in which every in-range pixel that no
dispatched triangle covers is opaque white, and every pixel covered by a dispatched triangle
that no later dispatched triangle covers (meshes in sequence order, triangles in sequence order
within a mesh) holds the shaded colour computed for that triangle, whatever the depth of the
vertices; with no mesh, or meshes without triangles, the result is the cleared buffer. -/
theorem C12_draw_order_last_write_wins (sqrtf : K → K) (buffer : color_buffer)
    (view_matrix proj_matrix : mat4 K) (meshes : List (mesh K))
    (hw : 1 ≤ buffer.width) (hh : 1 ≤ buffer.height)
    (hd : (buffer._data.length : Int) = buffer.width * buffer.height) :
    ∃ out : color_buffer, submit sqrtf buffer view_matrix proj_matrix meshes = some out ∧
      out.width = buffer.width ∧ out.height = buffer.height ∧
      (∀ x y : Int, (0 ≤ x ∧ x < buffer.width) → (0 ≤ y ∧ y < buffer.height) →
        ((∀ call ∈ submit_calls buffer view_matrix proj_matrix meshes,
            ¬ writes_pixel sqrtf buffer.width buffer.height call.1 call.2.1 call.2.2.1
              call.2.2.2 x y) →
          out.get x y = some color.white) ∧
        (∀ (pre post : List (vertex K × vertex K × vertex K × color))
            (call : vertex K × vertex K × vertex K × color),
          submit_calls buffer view_matrix proj_matrix meshes = pre ++ call :: post →
          writes_pixel sqrtf buffer.width buffer.height call.1 call.2.1 call.2.2.1
            call.2.2.2 x y →
          (∀ later ∈ post,
            ¬ writes_pixel sqrtf buffer.width buffer.height later.1 later.2.1 later.2.2.1
              later.2.2.2 x y) →
          out.get x y = some (shaded_color (normalize sqrtf ⟨-1, 0, 1⟩) (call.2.2.2.b : K)
            (call.2.2.2.g : K) (call.2.2.2.r : K) call.1 call.2.1 call.2.2.1 x y))) ∧
      ((∀ m ∈ meshes, m.triangles = []) → out = buffer.clear) := by
  have hpos : 0 < buffer.width * buffer.height := mul_pos (by omega) (by omega)
  obtain ⟨out, hout, h1, h2, _⟩ := submit_some sqrtf buffer view_matrix proj_matrix meshes hd
  refine ⟨out, hout, h1, h2, ?_, ?_⟩
  · intro x y hx hy
    have hget := get_apply_writes (submit_writes sqrtf buffer view_matrix proj_matrix meshes)
      buffer.clear out x y (clear_invariant buffer hd) hx hy
      (submit_writes_in_range sqrtf buffer view_matrix proj_matrix meshes)
      (by rw [← submit_eq_apply_writes]; exact hout)
    rw [clear_get buffer hd x y hx hy] at hget
    constructor
    · intro hno
      rw [hget]
      apply foldl_no_write
      rintro ⟨px, py, k⟩ hmem ⟨e1, e2⟩
      simp only at e1 e2
      subst e1 e2
      unfold submit_writes at hmem
      rw [List.mem_flatMap] at hmem
      obtain ⟨call, hcall, hwr⟩ := hmem
      exact hno call hcall ⟨k, hwr⟩
    · intro pre post call hsplit hcov hlater
      rw [hget]
      unfold submit_writes
      rw [hsplit, List.flatMap_append, List.foldl_append]
      apply foldl_same_write
      · rintro ⟨px, py, k⟩ hmem ⟨e1, e2⟩
        simp only at e1 e2
        subst e1 e2
        rw [List.flatMap_cons, List.mem_append] at hmem
        rcases hmem with hmem | hmem
        · exact ((mem_writes sqrtf _ _ _ _ _ _ px py k).mp hmem).2.2.2
        · rw [List.mem_flatMap] at hmem
          obtain ⟨later, hl, hwr⟩ := hmem
          exact absurd ⟨k, hwr⟩ (hlater later hl)
      · right
        obtain ⟨k, hk⟩ := hcov
        refine ⟨(x, y, k), ?_, rfl, rfl⟩
        rw [List.flatMap_cons, List.mem_append]
        exact Or.inl hk
  · intro hempty
    have hnil : submit_writes sqrtf buffer view_matrix proj_matrix meshes = [] := by
      rw [List.eq_nil_iff_forall_not_mem]
      intro w hmem
      unfold submit_writes at hmem
      rw [List.mem_flatMap] at hmem
      obtain ⟨call, hcall, _⟩ := hmem
      rw [mem_submit_calls] at hcall
      obtain ⟨m, hm, t, ht, _⟩ := hcall
      rw [hempty m hm] at ht
      exact absurd ht (List.not_mem_nil _)
    rw [submit_eq_apply_writes, hnil] at hout
    simp only [apply_writes, List.foldlM_nil, Option.pure_def, Option.some.injEq] at hout
    exact hout.symm

end claims_draw_order

end graphics

namespace graphics

open math

section draw_order_witness

theorem witness_calls :
    submit_calls (color_buffer.create 4 4) (create_identity : mat4 ℝ) create_identity
        [⟨create_identity, [⟨⟨⟨-1, -1, 0⟩, ⟨0, 0, 1⟩⟩, ⟨⟨-1, 0, 0⟩, ⟨0, 0, 1⟩⟩,
          ⟨⟨0, -1, 0⟩, ⟨0, 0, 1⟩⟩⟩]⟩] =
      [] ++ (⟨⟨0, 0, 1 / 2⟩, ⟨0, 0, 1⟩⟩, ⟨⟨0, 2, 1 / 2⟩, ⟨0, 0, 1⟩⟩, ⟨⟨2, 0, 1 / 2⟩, ⟨0, 0, 1⟩⟩,
        ⟨0, 0, 255, 255⟩) :: [] := by
  simp only [submit_calls, submit_args, List.flatMap_cons, List.flatMap_nil, List.append_nil,
    List.nil_append, transform_vector, transform_point, multiply, vec4.mul_mat, create_identity,
    dot, vec3.add_scalar, vec3.div_scalar, vec3.mul, color_buffer.create, color_buffer.width,
    color_buffer.height, List.filterMap_cons, List.filterMap_nil]
  norm_num

theorem to_int_real_two : to_int (2 : ℝ) = 2 := by
  simpa using to_int_intCast (K := ℝ) 2

/-- C12, witness: a 4x4 buffer and one mesh of one triangle facing the camera, with identity
model, view and projection matrices; the triangle reaches the screen as `(0, 0)`, `(0, 2)`,
`(2, 0)`: the pixel `(3, 3)` stays white and the pixel `(0, 0)` holds the shaded colour of the
triangle. -/
theorem C12_draw_order_witness :
    ∃ out : color_buffer,
      submit Real.sqrt (color_buffer.create 4 4) (create_identity : mat4 ℝ) create_identity
        [⟨create_identity, [⟨⟨⟨-1, -1, 0⟩, ⟨0, 0, 1⟩⟩, ⟨⟨-1, 0, 0⟩, ⟨0, 0, 1⟩⟩,
          ⟨⟨0, -1, 0⟩, ⟨0, 0, 1⟩⟩⟩]⟩] = some out ∧
      out.get 3 3 = some color.white ∧
      out.get 0 0 = some (shaded_color (math.normalize Real.sqrt ⟨-1, 0, 1⟩)
        (((⟨0, 0, 255, 255⟩ : color).b : Nat) : ℝ) (((⟨0, 0, 255, 255⟩ : color).g : Nat) : ℝ)
        (((⟨0, 0, 255, 255⟩ : color).r : Nat) : ℝ) ⟨⟨0, 0, 1 / 2⟩, ⟨0, 0, 1⟩⟩
        ⟨⟨0, 2, 1 / 2⟩, ⟨0, 0, 1⟩⟩ ⟨⟨2, 0, 1 / 2⟩, ⟨0, 0, 1⟩⟩ 0 0) := by
  have hw : 1 ≤ (color_buffer.create 4 4).width := by decide
  have hh : 1 ≤ (color_buffer.create 4 4).height := by decide
  have hd : ((color_buffer.create 4 4)._data.length : Int) =
      (color_buffer.create 4 4).width * (color_buffer.create 4 4).height := by decide
  obtain ⟨out, h, _, _, hpix, _⟩ := C12_draw_order_last_write_wins Real.sqrt
    (color_buffer.create 4 4) (create_identity : mat4 ℝ) create_identity
    [⟨create_identity, [⟨⟨⟨-1, -1, 0⟩, ⟨0, 0, 1⟩⟩, ⟨⟨-1, 0, 0⟩, ⟨0, 0, 1⟩⟩,
      ⟨⟨0, -1, 0⟩, ⟨0, 0, 1⟩⟩⟩]⟩] hw hh hd
  refine ⟨out, h, ?_, ?_⟩
  · refine (hpix 3 3 (by decide) (by decide)).1 ?_
    intro call hcall
    rw [witness_calls] at hcall
    simp only [List.nil_append, List.mem_singleton] at hcall
    subst hcall
    rw [writes_pixel_iff]
    simp only [to_int32, to_int_real_zero, to_int_real_two, color_buffer.create,
      color_buffer.width]
    rintro ⟨_, ⟨_, h2⟩, _⟩
    exact absurd h2 (by decide)
  · refine (hpix 0 0 (by decide) (by decide)).2 [] []
      (⟨⟨0, 0, 1 / 2⟩, ⟨0, 0, 1⟩⟩, ⟨⟨0, 2, 1 / 2⟩, ⟨0, 0, 1⟩⟩, ⟨⟨2, 0, 1 / 2⟩, ⟨0, 0, 1⟩⟩,
        ⟨0, 0, 255, 255⟩) witness_calls ?_ (by simp)
    rw [writes_pixel_iff]
    simp only [to_int32, to_int_real_zero, to_int_real_two, color_buffer.create,
      color_buffer.width,
      color_buffer.height]
    refine ⟨by decide, by decide, ?_⟩
    rw [inside_iff]
    simp only [edge_iff, E, vec3.xy]
    norm_num

end draw_order_witness

end graphics

namespace graphics

open math

section transform_stage

variable {K : Type} [LinearOrderedField K]

theorem submit_args_positions (bw bh : K) (view_proj : mat4 K) (camera_forward : vec3 K)
    (m : mesh K) (t : triangle K) (args : vertex K × vertex K × vertex K × color)
    (h : submit_args bw bh view_proj camera_forward m t = some args) :
    args.1.position = spec_screen bw bh (transform_point (multiply m.transform view_proj)
        t.a.position) ∧
    args.2.1.position = spec_screen bw bh (transform_point (multiply m.transform view_proj)
        t.b.position) ∧
    args.2.2.1.position = spec_screen bw bh (transform_point (multiply m.transform view_proj)
        t.c.position) ∧
    args.2.2.2 = ⟨0, 0, 255, 255⟩ := by
  unfold submit_args at h
  simp only at h
  split_ifs at h with hf
  simp only [Option.some.injEq] at h
  subst h
  simp only [spec_screen, vec3.add_scalar, vec3.div_scalar, vec3.mul, and_self]

end transform_stage

end graphics

namespace graphics

open math

section transform_witness

end transform_witness

section claims_colour

variable {K : Type} [LinearOrderedField K] [FloorRing K]

/-- C17 (amended): `submit` passes the same hardcoded base colour to `rasterize_triangle` for
every dispatched triangle of every mesh: `(b, g, r, a) = (0, 0, 255, 255)`, which is
`color::red`; its red channel is the largest, and every pixel written for a dispatched triangle
has blue 0, green 0, alpha 255 and the red value `255 * s` of the shade, converted to 8 bits. -/
theorem C17_fixed_override_colour (sqrtf : K → K) (buffer : color_buffer)
    (view_matrix proj_matrix : mat4 K) (meshes : List (mesh K))
    (call : vertex K × vertex K × vertex K × color)
    (hcall : call ∈ submit_calls buffer view_matrix proj_matrix meshes) :
    call.2.2.2 = ⟨0, 0, 255, 255⟩ ∧ call.2.2.2 = color.red ∧
    (call.2.2.2.b < call.2.2.2.r ∧ call.2.2.2.g < call.2.2.2.r) ∧
    (∀ (px py : Int) (k : color),
      (px, py, k) ∈ rasterize_triangle_writes sqrtf buffer.width buffer.height call.1 call.2.1
        call.2.2.1 call.2.2.2 →
      k.b = 0 ∧ k.g = 0 ∧ k.a = 255 ∧
      k.r = to_uint8 ((255 : K) * spec_shade sqrtf call.1 call.2.1 call.2.2.1 px py)) := by
  rw [mem_submit_calls] at hcall
  obtain ⟨m, _, t, _, hargs⟩ := hcall
  obtain ⟨_, _, _, hcol⟩ := submit_args_positions _ _ _ _ m t call hargs
  refine ⟨hcol, hcol, ?_, ?_⟩
  · rw [hcol]
    decide
  · intro px py k hmem
    rw [mem_writes] at hmem
    obtain ⟨_, _, _, rfl⟩ := hmem
    simp only [hcol, shaded_color, n_dot_l_eq_spec_shade, Nat.cast_zero, zero_mul,
      to_uint8_zero, Nat.cast_ofNat, and_self]

/-- C17, witness: the triangle dispatched for a 4x4 buffer with identity model, view and
projection matrices. -/
theorem C17_override_colour_witness :
    (⟨0, 0, 255, 255⟩ : color) = color.red ∧
    ∀ (px py : Int) (k : color),
      (px, py, k) ∈ rasterize_triangle_writes Real.sqrt (color_buffer.create 4 4).width
        (color_buffer.create 4 4).height ⟨⟨0, 0, 1 / 2⟩, ⟨0, 0, 1⟩⟩ ⟨⟨0, 2, 1 / 2⟩, ⟨0, 0, 1⟩⟩
        ⟨⟨2, 0, 1 / 2⟩, ⟨0, 0, 1⟩⟩ ⟨0, 0, 255, 255⟩ →
      k.b = 0 ∧ k.g = 0 ∧ k.a = 255 ∧
      k.r = to_uint8 ((255 : ℝ) * spec_shade Real.sqrt ⟨⟨0, 0, 1 / 2⟩, ⟨0, 0, 1⟩⟩
        ⟨⟨0, 2, 1 / 2⟩, ⟨0, 0, 1⟩⟩ ⟨⟨2, 0, 1 / 2⟩, ⟨0, 0, 1⟩⟩ px py) :=
  ⟨(C17_fixed_override_colour Real.sqrt (color_buffer.create 4 4) (create_identity : mat4 ℝ)
      create_identity
      [⟨create_identity, [⟨⟨⟨-1, -1, 0⟩, ⟨0, 0, 1⟩⟩, ⟨⟨-1, 0, 0⟩, ⟨0, 0, 1⟩⟩,
        ⟨⟨0, -1, 0⟩, ⟨0, 0, 1⟩⟩⟩]⟩]
      (⟨⟨0, 0, 1 / 2⟩, ⟨0, 0, 1⟩⟩, ⟨⟨0, 2, 1 / 2⟩, ⟨0, 0, 1⟩⟩, ⟨⟨2, 0, 1 / 2⟩, ⟨0, 0, 1⟩⟩,
        ⟨0, 0, 255, 255⟩)
      (by rw [witness_calls]; simp)).2.1,
    (C17_fixed_override_colour Real.sqrt (color_buffer.create 4 4) (create_identity : mat4 ℝ)
      create_identity
      [⟨create_identity, [⟨⟨⟨-1, -1, 0⟩, ⟨0, 0, 1⟩⟩, ⟨⟨-1, 0, 0⟩, ⟨0, 0, 1⟩⟩,
        ⟨⟨0, -1, 0⟩, ⟨0, 0, 1⟩⟩⟩]⟩]
      (⟨⟨0, 0, 1 / 2⟩, ⟨0, 0, 1⟩⟩, ⟨⟨0, 2, 1 / 2⟩, ⟨0, 0, 1⟩⟩, ⟨⟨2, 0, 1 / 2⟩, ⟨0, 0, 1⟩⟩,
        ⟨0, 0, 255, 255⟩)
      (by rw [witness_calls]; simp)).2.2.2⟩

/-- C17, counterexample: for a 4x4 buffer with identity model, view and projection matrices
`submit` dispatches a triangle with a base colour whose blue channel is not its largest: blue
is 0 and red is 255. -/
theorem C17_counterexample :
    ∃ call ∈ submit_calls (color_buffer.create 4 4) (create_identity : mat4 ℝ) create_identity
        [⟨create_identity, [⟨⟨⟨-1, -1, 0⟩, ⟨0, 0, 1⟩⟩, ⟨⟨-1, 0, 0⟩, ⟨0, 0, 1⟩⟩,
          ⟨⟨0, -1, 0⟩, ⟨0, 0, 1⟩⟩⟩]⟩],
      call.2.2.2.b = 0 ∧ call.2.2.2.r = 255 ∧
      ¬ (call.2.2.2.g ≤ call.2.2.2.b ∧ call.2.2.2.r ≤ call.2.2.2.b) := by
  refine ⟨(⟨⟨0, 0, 1 / 2⟩, ⟨0, 0, 1⟩⟩, ⟨⟨0, 2, 1 / 2⟩, ⟨0, 0, 1⟩⟩, ⟨⟨2, 0, 1 / 2⟩, ⟨0, 0, 1⟩⟩,
    ⟨0, 0, 255, 255⟩), by rw [witness_calls]; simp, rfl, rfl, by decide⟩

end claims_colour

end graphics

namespace graphics

open math

section claims_from_scratch

variable {K : Type} [LinearOrderedField K] [FloorRing K]

theorem clear_eq_of_same_size (b1 b2 : color_buffer)
    (hw : b2.width = b1.width) (hh : b2.height = b1.height)
    (hd1 : (b1._data.length : Int) = b1.width * b1.height)
    (hd2 : (b2._data.length : Int) = b2.width * b2.height) :
    b2.clear = b1.clear := by
  have hlen : b2._data.length = b1._data.length := by
    rw [hw, hh, ← hd1] at hd2
    exact_mod_cast hd2
  have e1 : b1.clear = ⟨b1._width, b1._height, b1.clear._data⟩ := rfl
  have e2 : b2.clear = ⟨b2._width, b2._height, b2.clear._data⟩ := rfl
  rw [e1, e2, clear_data b1 hd1, clear_data b2 hd2, hlen]
  simp only [color_buffer.width, color_buffer.height] at hw hh
  rw [hw, hh]

theorem submit_congr (sqrtf : K → K) (b1 b2 : color_buffer) (view_matrix proj_matrix : mat4 K)
    (meshes : List (mesh K)) (hw : b2.width = b1.width) (hh : b2.height = b1.height)
    (hc : b2.clear = b1.clear) :
    submit sqrtf b2 view_matrix proj_matrix meshes =
      submit sqrtf b1 view_matrix proj_matrix meshes := by
  unfold submit
  simp only [hw, hh, hc]

/-- C16: for two buffers of the same width and height (at least 1, each holding its
`width * height` pixels) with any prior contents, `submit` with the same view matrix, projection
matrix and meshes returns the same buffer; and `submit` applied to its own output returns that
output again. -/
theorem C16_submit_from_scratch (sqrtf : K → K) (b1 b2 : color_buffer)
    (view_matrix proj_matrix : mat4 K) (meshes : List (mesh K))
    (hw : 1 ≤ b1.width) (hh : 1 ≤ b1.height)
    (hw2 : b2.width = b1.width) (hh2 : b2.height = b1.height)
    (hd1 : (b1._data.length : Int) = b1.width * b1.height)
    (hd2 : (b2._data.length : Int) = b2.width * b2.height) :
    submit sqrtf b1 view_matrix proj_matrix meshes =
      submit sqrtf b2 view_matrix proj_matrix meshes ∧
    (∃ out : color_buffer, submit sqrtf b1 view_matrix proj_matrix meshes = some out ∧
      submit sqrtf b2 view_matrix proj_matrix meshes = some out ∧
      submit sqrtf out view_matrix proj_matrix meshes = some out) := by
  have hpos : 0 < b1.width * b1.height := mul_pos (by omega) (by omega)
  have h12 := submit_congr sqrtf b1 b2 view_matrix proj_matrix meshes hw2 hh2
    (clear_eq_of_same_size b1 b2 hw2 hh2 hd1 hd2)
  obtain ⟨out, hout, o1, o2, o3⟩ := submit_some sqrtf b1 view_matrix proj_matrix meshes hd1
  have ow : out.width = b1.width := o1
  have oh : out.height = b1.height := o2
  have od : (out._data.length : Int) = out.width * out.height := by
    rw [ow, oh, o3]
    exact hd1
  refine ⟨h12.symm, out, hout, h12.trans hout, ?_⟩
  rw [submit_congr sqrtf b1 out view_matrix proj_matrix meshes ow oh
    (clear_eq_of_same_size b1 out ow oh hd1 od)]
  exact hout

/-- C16, witness: a freshly constructed 2x2 buffer and a 2x2 buffer holding four different
colours, with identity matrices and one triangle facing the camera. -/
theorem C16_from_scratch_witness :
    submit Real.sqrt (color_buffer.create 2 2) (create_identity : mat4 ℝ) create_identity
        [⟨create_identity, [⟨⟨⟨-1, -1, 0⟩, ⟨0, 0, 1⟩⟩, ⟨⟨-1, 0, 0⟩, ⟨0, 0, 1⟩⟩,
          ⟨⟨0, -1, 0⟩, ⟨0, 0, 1⟩⟩⟩]⟩] =
      submit Real.sqrt ⟨2, 2, [color.red, color.green, color.blue, color.black]⟩
        (create_identity : mat4 ℝ) create_identity
        [⟨create_identity, [⟨⟨⟨-1, -1, 0⟩, ⟨0, 0, 1⟩⟩, ⟨⟨-1, 0, 0⟩, ⟨0, 0, 1⟩⟩,
          ⟨⟨0, -1, 0⟩, ⟨0, 0, 1⟩⟩⟩]⟩] :=
  (C16_submit_from_scratch Real.sqrt (color_buffer.create 2 2)
    ⟨2, 2, [color.red, color.green, color.blue, color.black]⟩ (create_identity : mat4 ℝ)
    create_identity
    [⟨create_identity, [⟨⟨⟨-1, -1, 0⟩, ⟨0, 0, 1⟩⟩, ⟨⟨-1, 0, 0⟩, ⟨0, 0, 1⟩⟩,
      ⟨⟨0, -1, 0⟩, ⟨0, 0, 1⟩⟩⟩]⟩]
    (by decide) (by decide) (by decide) (by decide) (by decide) (by decide)).1

end claims_from_scratch

section shade_bound

variable {K : Type} [LinearOrderedField K]

theorem dot_le_one (l n : vec3 K) (hl : dot l l = 1) (hn : dot n n ≤ 1) : dot l n ≤ 1 := by
  simp only [dot] at *
  nlinarith [sq_nonneg (l.x - n.x), sq_nonneg (l.y - n.y), sq_nonneg (l.z - n.z)]

theorem n_dot_l_le_one (l : vec3 K) (a b c : vertex K) (px py : Int)
    (hw : 0 < E a.position.xy b.position.xy c.position.xy)
    (hin : inside a b c px py = true)
    (hl : dot l l = 1) (hna : dot a.normal a.normal ≤ 1) (hnb : dot b.normal b.normal ≤ 1)
    (hnc : dot c.normal c.normal ≤ 1) :
    n_dot_l l a b c px py ≤ 1 := by
  rw [inside_iff] at hin
  simp only [edge_iff] at hin
  obtain ⟨hab, hbc, hca⟩ := hin
  have hne : E a.position.xy b.position.xy c.position.xy ≠ 0 := ne_of_gt hw
  have hs := barycentric_sum ⟨(px : K), (py : K)⟩ a.position.xy b.position.xy c.position.xy
  have hx : 0 ≤ (barycentric ⟨(px : K), (py : K)⟩ a.position.xy b.position.xy
      c.position.xy).x := by
    rw [barycentric_x _ _ _ _ hne]
    exact div_nonneg hbc hw.le
  have hy : 0 ≤ (barycentric ⟨(px : K), (py : K)⟩ a.position.xy b.position.xy
      c.position.xy).y := by
    rw [barycentric_y _ _ _ _ hne]
    exact div_nonneg hca hw.le
  have hz : 0 ≤ (barycentric ⟨(px : K), (py : K)⟩ a.position.xy b.position.xy
      c.position.xy).z := by
    rw [barycentric_z _ _ _ _ hne]
    exact div_nonneg hab hw.le
  have da := dot_le_one l a.normal hl hna
  have db := dot_le_one l b.normal hl hnb
  have dc := dot_le_one l c.normal hl hnc
  unfold n_dot_l
  apply max_le _ zero_le_one
  have hlin : dot l (((a.normal.scale (barycentric ⟨(px : K), (py : K)⟩ a.position.xy
      b.position.xy c.position.xy).x).add (b.normal.scale (barycentric ⟨(px : K), (py : K)⟩
      a.position.xy b.position.xy c.position.xy).y)).add (c.normal.scale
      (barycentric ⟨(px : K), (py : K)⟩ a.position.xy b.position.xy c.position.xy).z)) =
      (barycentric ⟨(px : K), (py : K)⟩ a.position.xy b.position.xy c.position.xy).x *
        dot l a.normal +
      (barycentric ⟨(px : K), (py : K)⟩ a.position.xy b.position.xy c.position.xy).y *
        dot l b.normal +
      (barycentric ⟨(px : K), (py : K)⟩ a.position.xy b.position.xy c.position.xy).z *
        dot l c.normal := by
    simp only [dot, vec3.add, vec3.scale]
    ring
  rw [hlin]
  have k1 := mul_le_mul_of_nonneg_left da hx
  have k2 := mul_le_mul_of_nonneg_left db hy
  have k3 := mul_le_mul_of_nonneg_left dc hz
  linarith

end shade_bound

end graphics

namespace graphics

open math

section claims_shade_bound

variable {K : Type} [LinearOrderedField K] [FloorRing K]

theorem channel_le (n : Nat) (s : K) (hs0 : 0 ≤ s) (hs1 : s ≤ 1) (hn : n ≤ 255) :
    (0 ≤ (n : K) * s ∧ (n : K) * s ≤ 255) ∧ to_uint8 ((n : K) * s) ≤ n := by
  have hn0 : (0 : K) ≤ (n : K) := Nat.cast_nonneg n
  have hn1 : (n : K) ≤ 255 := by exact_mod_cast hn
  have h0 : 0 ≤ (n : K) * s := mul_nonneg hn0 hs0
  have h1 : (n : K) * s ≤ (n : K) := mul_le_of_le_one_right hn0 hs1
  refine ⟨⟨h0, le_trans h1 hn1⟩, ?_⟩
  have e := to_uint8_eq h0 (lt_of_le_of_lt (le_trans h1 hn1) (by norm_num))
  have m := to_int_mono h1
  rw [to_int_natCast] at m
  omega

/-- C18: for a triangle with the accepted winding whose three vertex normals have length at
most 1, and a unit light direction, at every pixel written by `rasterize_triangle` the value
`n_dot_l` lies in `[0, 1]`; hence each of `bf * n_dot_l`, `gf * n_dot_l`, `rf * n_dot_l` lies in
`[0, 255]` for 8-bit base channels, and each written channel is at most the channel of the base
colour. -/
theorem C18_shade_at_most_one (sqrtf : K → K) (width height : Int) (a b c : vertex K)
    (col : color) (px py : Int) (k : color)
    (hw : 0 < E a.position.xy b.position.xy c.position.xy)
    (hl : dot (normalize sqrtf ⟨-1, 0, 1⟩) (normalize sqrtf ⟨-1, 0, 1⟩) = 1)
    (hna : dot a.normal a.normal ≤ 1) (hnb : dot b.normal b.normal ≤ 1)
    (hnc : dot c.normal c.normal ≤ 1)
    (hcol : col.b ≤ 255 ∧ col.g ≤ 255 ∧ col.r ≤ 255)
    (hmem : (px, py, k) ∈ rasterize_triangle_writes sqrtf width height a b c col) :
    (0 ≤ n_dot_l (normalize sqrtf ⟨-1, 0, 1⟩) a b c px py ∧
      n_dot_l (normalize sqrtf ⟨-1, 0, 1⟩) a b c px py ≤ 1) ∧
    (0 ≤ (col.b : K) * n_dot_l (normalize sqrtf ⟨-1, 0, 1⟩) a b c px py ∧
      (col.b : K) * n_dot_l (normalize sqrtf ⟨-1, 0, 1⟩) a b c px py ≤ 255) ∧
    (0 ≤ (col.g : K) * n_dot_l (normalize sqrtf ⟨-1, 0, 1⟩) a b c px py ∧
      (col.g : K) * n_dot_l (normalize sqrtf ⟨-1, 0, 1⟩) a b c px py ≤ 255) ∧
    (0 ≤ (col.r : K) * n_dot_l (normalize sqrtf ⟨-1, 0, 1⟩) a b c px py ∧
      (col.r : K) * n_dot_l (normalize sqrtf ⟨-1, 0, 1⟩) a b c px py ≤ 255) ∧
    (k.b ≤ col.b ∧ k.g ≤ col.g ∧ k.r ≤ col.r) := by
  rw [mem_writes] at hmem
  obtain ⟨_, _, hin, rfl⟩ := hmem
  have hs0 : 0 ≤ n_dot_l (normalize sqrtf ⟨-1, 0, 1⟩) a b c px py := by
    unfold n_dot_l
    exact le_max_right _ _
  have hs1 := n_dot_l_le_one (normalize sqrtf ⟨-1, 0, 1⟩) a b c px py hw hin hl hna hnb hnc
  have cb := channel_le col.b _ hs0 hs1 hcol.1
  have cg := channel_le col.g _ hs0 hs1 hcol.2.1
  have cr := channel_le col.r _ hs0 hs1 hcol.2.2
  exact ⟨⟨hs0, hs1⟩, cb.1, cg.1, cr.1, cb.2, cg.2, cr.2⟩

theorem light_unit :
    dot (math.normalize Real.sqrt (⟨-1, 0, 1⟩ : vec3 ℝ)) (math.normalize Real.sqrt ⟨-1, 0, 1⟩) =
      1 := by
  have hpos : 0 < Real.sqrt ((-1) * (-1) + 0 * 0 + 1 * 1) := Real.sqrt_pos.mpr (by norm_num)
  simp only [math.normalize, dot, vec3.div_scalar]
  field_simp

theorem unit_normal_mem :
    (0, 0, shaded_color (math.normalize Real.sqrt ⟨-1, 0, 1⟩) (color.white.b : ℝ)
        (color.white.g : ℝ) (color.white.r : ℝ) ⟨⟨0, 0, 0⟩, ⟨0, 0, 1⟩⟩
        ⟨⟨0, 4, 0⟩, ⟨0, 0, 1⟩⟩ ⟨⟨4, 0, 0⟩, ⟨0, 0, 1⟩⟩ 0 0) ∈
      rasterize_triangle_writes Real.sqrt 8 8 ⟨⟨0, 0, 0⟩, ⟨0, 0, 1⟩⟩
        ⟨⟨0, 4, 0⟩, ⟨0, 0, 1⟩⟩ ⟨⟨4, 0, 0⟩, ⟨0, 0, 1⟩⟩ color.white := by
  refine (mem_writes Real.sqrt 8 8 _ _ _ color.white 0 0 _).mpr ⟨?_, ?_, ?_, rfl⟩
  · simp only [to_int32, to_int_real_zero, to_int_real_four, minmax3]
    decide
  · simp only [to_int32, to_int_real_zero, to_int_real_four, minmax3]
    decide
  · rw [inside_iff]
    simp only [edge_iff, E, vec3.xy]
    norm_num

/-- C18, witness: the triangle `(0, 0)`, `(0, 4)`, `(4, 0)` with the unit normal `(0, 0, 1)` at
each vertex, base colour white and the light `normalize (-1, 0, 1)` over the reals: the channels
written at the pixel `(0, 0)` are at most 255. -/
theorem C18_shade_witness :
    (shaded_color (math.normalize Real.sqrt ⟨-1, 0, 1⟩) (color.white.b : ℝ)
        (color.white.g : ℝ) (color.white.r : ℝ) ⟨⟨0, 0, 0⟩, ⟨0, 0, 1⟩⟩
        ⟨⟨0, 4, 0⟩, ⟨0, 0, 1⟩⟩ ⟨⟨4, 0, 0⟩, ⟨0, 0, 1⟩⟩ 0 0).b ≤ color.white.b ∧
    (shaded_color (math.normalize Real.sqrt ⟨-1, 0, 1⟩) (color.white.b : ℝ)
        (color.white.g : ℝ) (color.white.r : ℝ) ⟨⟨0, 0, 0⟩, ⟨0, 0, 1⟩⟩
        ⟨⟨0, 4, 0⟩, ⟨0, 0, 1⟩⟩ ⟨⟨4, 0, 0⟩, ⟨0, 0, 1⟩⟩ 0 0).g ≤ color.white.g ∧
    (shaded_color (math.normalize Real.sqrt ⟨-1, 0, 1⟩) (color.white.b : ℝ)
        (color.white.g : ℝ) (color.white.r : ℝ) ⟨⟨0, 0, 0⟩, ⟨0, 0, 1⟩⟩
        ⟨⟨0, 4, 0⟩, ⟨0, 0, 1⟩⟩ ⟨⟨4, 0, 0⟩, ⟨0, 0, 1⟩⟩ 0 0).r ≤ color.white.r :=
  (C18_shade_at_most_one Real.sqrt 8 8 ⟨⟨0, 0, 0⟩, ⟨0, 0, 1⟩⟩ ⟨⟨0, 4, 0⟩, ⟨0, 0, 1⟩⟩
    ⟨⟨4, 0, 0⟩, ⟨0, 0, 1⟩⟩ color.white 0 0 _ (by norm_num [E, vec3.xy]) light_unit
    (by norm_num [dot]) (by norm_num [dot]) (by norm_num [dot]) (by decide)
    unit_normal_mem).2.2.2.2

end claims_shade_bound

end graphics

namespace benchmark

section registry

variable {K : Type}

/-! ## The benchmark registry -/

theorem samples_push_nonempty (name : Nat) (time_ms : K) (samples : List (Nat × sample K))
    (h : ∀ entry ∈ samples, entry.2._elapsed_times ≠ []) :
    ∀ entry ∈ samples_push name time_ms samples, entry.2._elapsed_times ≠ [] := by
  induction samples with
  | nil =>
    intro entry hmem
    simp only [samples_push, List.mem_singleton] at hmem
    subst hmem
    simp
  | cons head rest ih =>
    obtain ⟨key, s⟩ := head
    intro entry hmem
    have hrest : ∀ entry ∈ rest, entry.2._elapsed_times ≠ [] :=
      fun e he => h e (List.mem_cons_of_mem _ he)
    simp only [samples_push] at hmem
    split_ifs at hmem with h1 h2
    · rcases List.mem_cons.mp hmem with rfl | hm
      · simp
      · exact hrest entry hm
    · rcases List.mem_cons.mp hmem with rfl | hm
      · simp
      · exact h entry hm
    · rcases List.mem_cons.mp hmem with rfl | hm
      · exact h _ (List.mem_cons_self _ _)
      · exact ih hrest entry hm

theorem samples_push_keys (name : Nat) (time_ms : K) (samples : List (Nat × sample K)) :
    ∀ entry ∈ samples_push name time_ms samples,
      entry.1 = name ∨ ∃ old ∈ samples, old.1 = entry.1 := by
  induction samples with
  | nil =>
    intro entry hmem
    simp only [samples_push, List.mem_singleton] at hmem
    subst hmem
    exact Or.inl rfl
  | cons head rest ih =>
    obtain ⟨key, s⟩ := head
    intro entry hmem
    simp only [samples_push] at hmem
    split_ifs at hmem with h1 h2
    · rcases List.mem_cons.mp hmem with rfl | hm
      · exact Or.inr ⟨(key, s), List.mem_cons_self _ _, rfl⟩
      · exact Or.inr ⟨entry, List.mem_cons_of_mem _ hm, rfl⟩
    · rcases List.mem_cons.mp hmem with rfl | hm
      · exact Or.inl rfl
      · exact Or.inr ⟨entry, hm, rfl⟩
    · rcases List.mem_cons.mp hmem with rfl | hm
      · exact Or.inr ⟨(key, s), List.mem_cons_self _ _, rfl⟩
      · rcases ih entry hm with h | ⟨old, ho, he⟩
        · exact Or.inl h
        · exact Or.inr ⟨old, List.mem_cons_of_mem _ ho, he⟩

theorem samples_push_sorted (name : Nat) (time_ms : K) (samples : List (Nat × sample K))
    (h : samples.Pairwise (fun e1 e2 => e1.1 < e2.1)) :
    (samples_push name time_ms samples).Pairwise (fun e1 e2 => e1.1 < e2.1) := by
  induction samples with
  | nil => simp [samples_push]
  | cons head rest ih =>
    obtain ⟨key, s⟩ := head
    rw [List.pairwise_cons] at h
    obtain ⟨hhead, hrest⟩ := h
    simp only [samples_push]
    split_ifs with h1 h2
    · rw [List.pairwise_cons]
      exact ⟨hhead, hrest⟩
    · rw [List.pairwise_cons, List.pairwise_cons]
      refine ⟨?_, hhead, hrest⟩
      intro e he
      rcases List.mem_cons.mp he with rfl | hm
      · exact h2
      · exact lt_trans h2 (hhead e hm)
    · rw [List.pairwise_cons]
      refine ⟨?_, ih hrest⟩
      intro e he
      rcases samples_push_keys name time_ms rest e he with hn | ⟨old, ho, hk⟩
      · rw [hn]
        omega
      · rw [← hk]
        exact hhead old ho

theorem samples_find_none_of_lt (name : Nat) (samples : List (Nat × sample K))
    (h : ∀ entry ∈ samples, name < entry.1) : samples_find name samples = none := by
  induction samples with
  | nil => rfl
  | cons head rest ih =>
    obtain ⟨key, s⟩ := head
    have hk : name < key := h (key, s) (List.mem_cons_self _ _)
    simp only [samples_find]
    rw [if_neg (by omega)]
    exact ih (fun e he => h e (List.mem_cons_of_mem _ he))

theorem samples_find_push_other (name other : Nat) (time_ms : K)
    (samples : List (Nat × sample K)) (hne : other ≠ name) :
    samples_find other (samples_push name time_ms samples) = samples_find other samples := by
  induction samples with
  | nil => simp [samples_push, samples_find, hne]
  | cons head rest ih =>
    obtain ⟨key, s⟩ := head
    simp only [samples_push]
    split_ifs with h1 h2
    · subst h1
      simp [samples_find, hne]
    · simp [samples_find, hne]
    · simp only [samples_find, ih]

theorem samples_find_push_same (name : Nat) (time_ms : K) (samples : List (Nat × sample K))
    (h : samples.Pairwise (fun e1 e2 => e1.1 < e2.1)) :
    ∃ s : sample K, samples_find name (samples_push name time_ms samples) = some s ∧
      s._elapsed_times.length =
        ((samples_find name samples).map (fun old => old._elapsed_times.length)).getD 0 + 1 := by
  induction samples with
  | nil => exact ⟨⟨[time_ms]⟩, by simp [samples_push, samples_find], by simp [samples_find]⟩
  | cons head rest ih =>
    obtain ⟨key, s⟩ := head
    rw [List.pairwise_cons] at h
    obtain ⟨hhead, hrest⟩ := h
    simp only [samples_push]
    split_ifs with h1 h2
    · subst h1
      exact ⟨⟨s._elapsed_times ++ [time_ms]⟩, by simp [samples_find], by simp [samples_find]⟩
    · refine ⟨⟨[time_ms]⟩, by simp [samples_find], ?_⟩
      have hnone : samples_find name rest = none :=
        samples_find_none_of_lt name rest (fun e he => lt_trans h2 (hhead e he))
      simp [samples_find, h1, hnone]
    · obtain ⟨s', hs1, hs2⟩ := ih hrest
      refine ⟨s', by simp [samples_find, h1, hs1], ?_⟩
      simp only [samples_find, h1, if_false]
      exact hs2


theorem run_snoc (events : List (event K)) (e : event K) :
    run (events ++ [e]) = (run events).bind (fun s => step s e) := by
  unfold run
  rw [List.foldlM_append]
  cases List.foldlM step (⟨[], []⟩ : state K) events with
  | none => rfl
  | some s =>
    simp only [Option.bind_eq_bind, Option.some_bind, List.foldlM_cons, List.foldlM_nil]
    cases step s e <;> rfl

theorem destroyed_snoc (name : Nat) (events : List (event K)) (e : event K) :
    destroyed name (events ++ [e]) =
      destroyed name events +
        (match e with
          | event.construct _ => 0
          | event.destroy n _ => if n = name then 1 else 0) := by
  unfold destroyed
  rw [List.countP_append]
  cases e with
  | construct n => simp [List.countP_cons]
  | destroy n t =>
    by_cases h : n = name <;> simp [List.countP_cons, h]

theorem samples_find_mem (name : Nat) (found : sample K) (samples : List (Nat × sample K))
    (h : samples_find name samples = some found) : ∃ key, (key, found) ∈ samples := by
  induction samples with
  | nil => simp [samples_find] at h
  | cons head rest ih =>
    obtain ⟨key, s1⟩ := head
    simp only [samples_find] at h
    split_ifs at h with hk
    · simp only [Option.some.injEq] at h
      subst h
      exact ⟨key, List.mem_cons_self _ _⟩
    · obtain ⟨k, hk'⟩ := ih h
      exact ⟨k, List.mem_cons_of_mem _ hk'⟩

theorem run_invariant (events : List (event K)) :
    ∀ s : state K, run events = some s →
      s._samples.Pairwise (fun e1 e2 => e1.1 < e2.1) ∧
      (∀ entry ∈ s._samples, entry.2._elapsed_times ≠ []) ∧
      (∀ name : Nat,
        ((samples_find name s._samples).map (fun old => old._elapsed_times.length)).getD 0 =
          destroyed name events) := by
  induction events using List.reverseRecOn with
  | nil =>
    intro s h
    simp only [run, List.foldlM_nil, Option.pure_def, Option.some.injEq] at h
    subst h
    exact ⟨List.Pairwise.nil, by simp, by simp [samples_find, destroyed]⟩
  | append_singleton events e ih =>
    intro s h
    rw [run_snoc] at h
    cases hr : run events with
    | none => rw [hr] at h; exact absurd h (by simp)
    | some s0 =>
      rw [hr, Option.some_bind] at h
      obtain ⟨hsorted, hne, hcount⟩ := ih s0 hr
      cases e with
      | construct n =>
        simp only [step, Option.some.injEq] at h
        subst h
        refine ⟨hsorted, hne, ?_⟩
        intro name
        rw [destroyed_snoc, hcount name]
        rfl
      | destroy n t =>
        simp only [step] at h
        split_ifs at h with hlive
        simp only [Option.some.injEq] at h
        subst h
        refine ⟨samples_push_sorted n t _ hsorted, samples_push_nonempty n t _ hne, ?_⟩
        intro name
        rw [destroyed_snoc]
        by_cases hname : n = name
        · subst hname
          obtain ⟨s', hs1, hs2⟩ := samples_find_push_same n t s0._samples hsorted
          simp only [hs1, Option.map_some', Option.getD_some, hs2, hcount n, if_true]
        · have hname' : name ≠ n := fun e => hname e.symm
          simp only [samples_find_push_other n name t s0._samples hname', hcount name, hname,
            if_false, add_zero]

end registry

section claims_registry

variable {K : Type} [LinearOrderedField K]

theorem report_cons (head : Nat × sample K) (rest : List (Nat × sample K)) :
    report (head :: rest) =
      ((report_sample head.2._elapsed_times).map (fun figures => (head.1, figures))).bind
        (fun line => (report rest).bind (fun lines => some (line :: lines))) := by
  simp only [report, List.mapM_cons, Option.bind_eq_bind, Option.pure_def]

theorem report_some (samples : List (Nat × sample K))
    (h : ∀ entry ∈ samples, entry.2._elapsed_times ≠ []) :
    ∃ lines : List (Nat × Nat × K × K × K), report samples = some lines := by
  induction samples with
  | nil => exact ⟨[], rfl⟩
  | cons head rest ih =>
    obtain ⟨lines, hl⟩ := ih (fun e he => h e (List.mem_cons_of_mem _ he))
    have hhead := h head (List.mem_cons_self _ _)
    have hfig : ∃ figures, report_sample head.2._elapsed_times = some figures := by
      cases ht : head.2._elapsed_times with
      | nil => exact absurd ht hhead
      | cons t ts => exact ⟨_, rfl⟩
    obtain ⟨figures, hf⟩ := hfig
    rw [report_cons, hf, hl]
    exact ⟨_, rfl⟩

/-- C19: in every state reached by constructing and destroying `benchmark` objects, every
entry of `_samples` holds at least one elapsed time, the entry of a name holds exactly as many
samples as objects of that name were destroyed (and there is no entry when none was), the
constructor leaves `_samples` as it is, and `report` never meets an empty entry. -/
theorem C19_registry_invariant (events : List (event K)) (s : state K)
    (h : run events = some s) :
    (∀ entry ∈ s._samples, entry.2._elapsed_times ≠ []) ∧
    (∀ (name : Nat) (found : sample K), samples_find name s._samples = some found →
      found._elapsed_times.length = destroyed name events ∧ 1 ≤ destroyed name events) ∧
    (∀ name : Nat, samples_find name s._samples = none → destroyed name events = 0) ∧
    (∀ (name : Nat) (s' : state K), step s (event.construct name) = some s' →
      s'._samples = s._samples) ∧
    (∃ lines : List (Nat × Nat × K × K × K), report s._samples = some lines) := by
  obtain ⟨_, hne, hcount⟩ := run_invariant events s h
  refine ⟨hne, ?_, ?_, ?_, report_some s._samples hne⟩
  · intro name found hfound
    have := hcount name
    rw [hfound] at this
    simp only [Option.map_some', Option.getD_some] at this
    refine ⟨this, ?_⟩
    rw [← this]
    have hmem := samples_find_mem name found s._samples hfound
    obtain ⟨key, hk⟩ := hmem
    have := hne _ hk
    exact Nat.one_le_iff_ne_zero.mpr (fun h0 => this (List.length_eq_zero.mp h0))
  · intro name hnone
    have := hcount name
    rw [hnone] at this
    simpa using this.symm
  · intro name s' hs
    simp only [step, Option.some.injEq] at hs
    subst hs
    rfl

/-- C19, witness: two `benchmark` objects of the same name constructed and destroyed one after
the other, with elapsed times 5 and 7. -/
theorem C19_registry_witness :
    (∀ entry ∈ (⟨[], [(1, ⟨[5, 7]⟩)]⟩ : state ℚ)._samples, entry.2._elapsed_times ≠ []) ∧
    (∀ (name : Nat) (found : sample ℚ),
      samples_find name (⟨[], [(1, ⟨[5, 7]⟩)]⟩ : state ℚ)._samples = some found →
      found._elapsed_times.length =
        destroyed name [event.construct 1, event.destroy 1 (5 : ℚ), event.construct 1,
          event.destroy 1 7] ∧
      1 ≤ destroyed name [event.construct 1, event.destroy 1 (5 : ℚ), event.construct 1,
          event.destroy 1 7]) ∧
    (∀ name : Nat, samples_find name (⟨[], [(1, ⟨[5, 7]⟩)]⟩ : state ℚ)._samples = none →
      destroyed name [event.construct 1, event.destroy 1 (5 : ℚ), event.construct 1,
          event.destroy 1 7] = 0) ∧
    (∀ (name : Nat) (s' : state ℚ),
      step (⟨[], [(1, ⟨[5, 7]⟩)]⟩ : state ℚ) (event.construct name) = some s' →
      s'._samples = (⟨[], [(1, ⟨[5, 7]⟩)]⟩ : state ℚ)._samples) ∧
    (∃ lines : List (Nat × Nat × ℚ × ℚ × ℚ),
      report (⟨[], [(1, ⟨[5, 7]⟩)]⟩ : state ℚ)._samples = some lines) :=
  C19_registry_invariant
    [event.construct 1, event.destroy 1 (5 : ℚ), event.construct 1, event.destroy 1 7]
    ⟨[], [(1, ⟨[5, 7]⟩)]⟩ (by simp [run, step, samples_push])

end claims_registry

end benchmark
